import Mathlib

/-!
Shallow embedding of the boundless deployment tooling:
the consistency checker `deployments-check.py` and the updater
`contracts/update_deployment_toml.py`.  Text is represented as `List Char`;
each regular expression of the source is embedded as a hand-written matcher
with Python `re` semantics (leftmost match, lazy groups, greedy classes).
-/

namespace Boundless

/-- Characters of a string literal; the text representation used throughout. -/
def chars (s : String) : List Char := s.data

/-- ASCII model of Python's whitespace class (regex class and str.strip set). -/
def isSpaceCh (c : Char) : Bool :=
  c = ' ' || c = '\t' || c = '\n' || c = '\r' || c = '\x0b' || c = '\x0c'

/-- ASCII model of Python's regex word class (the inputs are ASCII). -/
def isWordCh (c : Char) : Bool :=
  (decide ('a' ≤ c) && decide (c ≤ 'z')) || (decide ('A' ≤ c) && decide (c ≤ 'Z')) ||
  (decide ('0' ≤ c) && decide (c ≤ '9')) || c = '_'

/-- Hex digit, as in the regex class of the address patterns. -/
def isHexCh (c : Char) : Bool :=
  (decide ('0' ≤ c) && decide (c ≤ '9')) || (decide ('a' ≤ c) && decide (c ≤ 'f')) ||
  (decide ('A' ≤ c) && decide (c ≤ 'F'))

/-- ASCII lowercasing, the model of Python str.lower on the data at hand. -/
def lowerCh (c : Char) : Char :=
  if decide ('A' ≤ c) && decide (c ≤ 'Z') then Char.ofNat (c.toNat + 32) else c

/-- Python str.lower. -/
def pyLower (l : List Char) : List Char := l.map lowerCh

/-- ASCII uppercasing, the model of Python str.upper. -/
def upperCh (c : Char) : Char :=
  if decide ('a' ≤ c) && decide (c ≤ 'z') then Char.ofNat (c.toNat - 32) else c

/-- Python str.upper. -/
def pyUpper (l : List Char) : List Char := l.map upperCh

/-- Python str.strip(): drop leading and trailing whitespace. -/
def pyStrip (l : List Char) : List Char :=
  ((l.dropWhile isSpaceCh).reverse.dropWhile isSpaceCh).reverse

/-- Python str.rstrip(): drop trailing whitespace only. -/
def pyRstrip (l : List Char) : List Char :=
  (l.reverse.dropWhile isSpaceCh).reverse

/-- Match a literal pattern at the head of the text, returning the rest. -/
def lit : List Char → List Char → Option (List Char)
  | [], l => some l
  | _ :: _, [] => none
  | p :: ps, c :: cs => if c = p then lit ps cs else none

/-- Case-insensitive literal match at the head (re.IGNORECASE on an escaped
literal, as in the documentation section pattern). -/
def litCI : List Char → List Char → Option (List Char)
  | [], l => some l
  | _ :: _, [] => none
  | p :: ps, c :: cs => if lowerCh c = lowerCh p then litCI ps cs else none

/-- Greedy whitespace skip: regex \s* followed by a non-space requirement. -/
def skipWs (l : List Char) : List Char := l.dropWhile isSpaceCh

/-- Split the text at the first occurrence of a literal substring: the text
before it and the text after it.  This is the lazy capture (.*?) followed by
that literal. -/
def splitAtSub (pat : List Char) : List Char → Option (List Char × List Char)
  | [] =>
    match lit pat [] with
    | some rest => some ([], rest)
    | none => none
  | c :: cs =>
    match lit pat (c :: cs) with
    | some rest => some ([], rest)
    | none => (splitAtSub pat cs).map (fun br => (c :: br.1, br.2))

/-- The text up to the first occurrence of a substring, or all of it. -/
def takeUntilSub (pat l : List Char) : List Char :=
  match splitAtSub pat l with
  | some br => br.1
  | none => l

/-- re.search: try a single-position matcher at every position, left to right,
and return the first success. -/
def scanFirst {α : Type} (f : List Char → Option α) : List Char → Option α
  | [] => f []
  | c :: cs =>
    match f (c :: cs) with
    | some a => some a
    | none => scanFirst f cs

/-- re.search for a matcher that also inspects the character just before the
match position (needed for word boundaries). -/
def scanFirstP {α : Type} (f : Option Char → List Char → Option α) :
    Option Char → List Char → Option α
  | prev, [] => f prev []
  | prev, c :: cs =>
    match f prev (c :: cs) with
    | some a => some a
    | none => scanFirstP f (some c) cs

/-- Python dict lookup d.get on an insertion-ordered association list. -/
def dget {α : Type} (k : List Char) : List (List Char × α) → Option α
  | [] => none
  | kv :: rest => if kv.1 = k then some kv.2 else dget k rest

/-- Python dict assignment d[k] = v: update in place, else append. -/
def dinsert {α : Type} (k : List Char) (v : α) :
    List (List Char × α) → List (List Char × α)
  | [] => [(k, v)]
  | kv :: rest => if kv.1 = k then (k, v) :: rest else kv :: dinsert k v rest

/-- Helper of the splitlines model: accumulate the current line. -/
def splitLinesAux (acc : List Char) : List Char → List (List Char)
  | [] => [acc.reverse]
  | c :: cs =>
    if c = '\n' then acc.reverse :: splitLinesAux [] cs
    else splitLinesAux (c :: acc) cs

/-- Python str.splitlines modelled for newline-separated text (a carriage
return before a newline stays on its line; the uses below strip or ignore it).
A trailing newline does not open an extra empty line. -/
def pyLines (l : List Char) : List (List Char) :=
  match l with
  | [] => []
  | _ =>
    let parts := splitLinesAux [] l
    if l.getLast? = some '\n' then parts.dropLast else parts

/-! ## The source-code extractor (extract_rs_addresses) -/

/-- Left and right brace characters (written by code point). -/
def lbrace : Char := Char.ofNat 123

/-- Right brace character. -/
def rbrace : Char := Char.ofNat 125

/-- One attempt, at a position, of the field-entry regex
(\w+_address)\s*:\s*([^,]+),   used inside a constant block.
With backtracking, \w+_address can only match a maximal word-character run
that ends in _address; the value group takes everything up to the first
comma (after the greedy \s*, which gives one character back when the value
is all whitespace).  Returns field name, raw captured value, rest of text. -/
def matchFieldAt (l : List Char) : Option (List Char × List Char × List Char) :=
  let w := l.takeWhile isWordCh
  if 9 ≤ w.length ∧ w.drop (w.length - 8) = chars "_address" then
    match lit [':'] (skipWs (l.drop w.length)) with
    | none => none
    | some r2 =>
      match r2.findIdx? (fun c => c = ',') with
      | none => none
      | some j =>
        if j = 0 then none
        else
          let u := (r2.takeWhile isSpaceCh).length
          let v := if u < j then (r2.drop u).take (j - u) else (r2.drop (j - 1)).take 1
          some (w, v, r2.drop (j + 1))
  else none

/-- re.finditer over the struct body: scan left to right, non-overlapping
matches, advancing one character after a failed attempt.  Fuel bounds the
scan; the caller passes the text length plus one, which always suffices
because the text strictly shrinks at every step. -/
def findFields : Nat → List Char → List (List Char × List Char)
  | 0, _ => []
  | _ + 1, [] => []
  | fuel + 1, c :: cs =>
    match matchFieldAt (c :: cs) with
    | some fvr => (fvr.1, fvr.2.1) :: findFields fuel fvr.2.2
    | none => findFields fuel cs

/-- Take exactly n hex digits, returning them and the rest. -/
def hexTake : Nat → List Char → Option (List Char × List Char)
  | 0, l => some ([], l)
  | _ + 1, [] => none
  | n + 1, c :: cs =>
    if isHexCh c then (hexTake n cs).map (fun hr => (c :: hr.1, hr.2)) else none

/-- Match 0x followed by exactly 40 hex digits at the head of the text,
returning the 42 captured characters and the rest. -/
def matchAddrAt (l : List Char) : Option (List Char × List Char) :=
  match lit (chars "0x") l with
  | none => none
  | some r => (hexTake 40 r).map (fun hr => ('0' :: 'x' :: hr.1, hr.2))

/-- One attempt, at a position, of the address-literal regex
address!\(\s*"(0x[a-fA-F0-9]...40...)"\s*\)   searched inside a field value. -/
def matchAddrLitAt (l : List Char) : Option (List Char) :=
  match lit (chars "address!(") l with
  | none => none
  | some r1 =>
    match lit ['"'] (skipWs r1) with
    | none => none
    | some r2 =>
      match matchAddrAt r2 with
      | none => none
      | some ar =>
        match lit ['"'] ar.2 with
        | none => none
        | some r3 =>
          match lit [')'] (skipWs r3) with
          | none => none
          | some _ => some ar.1

/-- Interpretation of one captured field value (deployments-check.py lines
38-51): strip it; a literal None gives the empty string; otherwise search for
an address literal and lowercase it; otherwise the empty string. -/
def rsFieldValue (raw : List Char) : List Char :=
  let val := pyStrip raw
  if val = chars "None" then []
  else
    match scanFirst matchAddrLitAt val with
    | some a => pyLower a
    | none => []

/-- One attempt, at a position, of the block regex of line 27,
pub const NET\s*:\s*Deployment\s*=\s*Deployment\s*\x7b(.*?)\x7d;
under re.DOTALL: on success returns the lazily captured struct body.
re.escape on the constant name is the identity for the identifiers used;
its effect, a literal match of the name, is what lit implements. -/
def matchBlockAt (net : List Char) (l : List Char) : Option (List Char) :=
  match lit (chars "pub const ") l with
  | none => none
  | some r1 =>
    match lit net r1 with
    | none => none
    | some r2 =>
      match lit [':'] (skipWs r2) with
      | none => none
      | some r3 =>
        match lit (chars "Deployment") (skipWs r3) with
        | none => none
        | some r4 =>
          match lit ['='] (skipWs r4) with
          | none => none
          | some r5 =>
            match lit (chars "Deployment") (skipWs r5) with
            | none => none
            | some r6 =>
              match lit [lbrace] (skipWs r6) with
              | none => none
              | some r7 => (splitAtSub [rbrace, ';'] r7).map Prod.fst

/-- extract_rs_addresses of deployments-check.py: locate the constant block
for the uppercased network name, then collect every field entry, building the
dict in insertion order. -/
def extract_rs_addresses (rs_content network : List Char) :
    List (List Char × List Char) :=
  match scanFirst (matchBlockAt (pyUpper network)) rs_content with
  | none => []
  | some block =>
    (findFields (block.length + 1) block).foldl
      (fun m fv => dinsert fv.1 (rsFieldValue fv.2) m) []

/-! ## The documentation extractor (extract_docs_addresses) -/

/-- A documentation label: a plain literal, or one enclosed in word
boundaries (regex \b...\b).  All word-bounded labels of the source consist
of word characters only, which is what the boundary checks below assume. -/
inductive LabelPat where
  | plain (p : List Char)
  | word (p : List Char)

/-- Word-boundary check against the character before the match (none at the
start of the text). -/
def boundaryB : Option Char → Bool
  | none => true
  | some c => !isWordCh c

/-- Word-boundary check against the text following the match. -/
def boundaryHead : List Char → Bool
  | [] => true
  | c :: _ => !isWordCh c

/-- Match a label at the head of the text, given the preceding character. -/
def matchLabelAt (pat : LabelPat) (prev : Option Char) (l : List Char) :
    Option (List Char) :=
  match pat with
  | .plain p => lit p l
  | .word p =>
    match lit p l with
    | none => none
    | some rest => if boundaryB prev && boundaryHead rest then some rest else none

/-- The lazy tail .*?(0x...40 hex...) of the grab regex: try the address at
each offset, consuming gap characters one at a time; without re.DOTALL the
gap may not contain a newline. -/
def lazyAddr : List Char → Option (List Char)
  | [] => none
  | c :: cs =>
    match matchAddrAt (c :: cs) with
    | some ar => some ar.1
    | none => if c = '\n' then none else lazyAddr cs

/-- One attempt, at a position, of the full grab regex: the label followed,
on the same line, by an address. -/
def labelThenAddrAt (pat : LabelPat) (prev : Option Char) (l : List Char) :
    Option (List Char) :=
  match matchLabelAt pat prev l with
  | none => none
  | some rest => lazyAddr rest

/-- grab of extract_docs_addresses: the first match of label.*?(0x...) in the
section, lowercased; the empty string when there is none. -/
def grab (pat : LabelPat) (sec : List Char) : List Char :=
  pyLower ((scanFirstP (labelThenAddrAt pat) none sec).getD [])

/-- extract_docs_addresses of deployments-check.py: capture the section after
the first (case-insensitive) occurrence of the header, up to the next
newline-### or the end; within it grab the fixed list of labels. -/
def extract_docs_addresses (docs_content network_section : List Char) :
    List (List Char × List Char) :=
  match scanFirst (litCI network_section) docs_content with
  | none => []
  | some afterHeader =>
    let sec := takeUntilSub (chars "\n###") afterHeader
    [ (chars "boundless_market_address", grab (.plain (chars "BoundlessMarket")) sec),
      (chars "set_verifier_address", grab (.plain (chars "SetVerifier")) sec),
      (chars "verifier_router_address", grab (.plain (chars "RiscZeroVerifierRouter")) sec),
      (chars "collateral_token_address", grab (.plain (chars "CollateralToken")) sec),
      (chars "zkc_address", grab (.word (chars "ZKC")) sec),
      (chars "vezkc_address", grab (.word (chars "veZKC")) sec),
      (chars "staking_rewards_address", grab (.plain (chars "StakingRewards")) sec),
      (chars "povw_accounting_address", grab (.word (chars "POVW_ACCOUNTING")) sec),
      (chars "povw_mint_address", grab (.word (chars "POVW_MINT")) sec) ]

/-- check_todos of deployments-check.py: every line containing TODO. -/
def containsSub (pat l : List Char) : Bool := (splitAtSub pat l).isSome

/-- check_todos: the lines of the documentation containing the TODO marker. -/
def check_todos (docs_content : List Char) : List (List Char) :=
  (pyLines docs_content).filter (fun line => containsSub (chars "TODO") line)

/-! ## The comparator / reporter (main of deployments-check.py) -/

/-- The parsed config document as the checker reads it: the optional
top-level deployment table maps network keys to tables of string fields
(the tracked fields are all strings in the document). -/
structure TomlDoc where
  deployment : Option (List (List Char × List (List Char × List Char)))

/-- toml_section of deployments-check.py:
(toml_data.get deployment or empty).get(network_key, empty) or empty. -/
def toml_section (d : TomlDoc) (network_key : List Char) :
    List (List Char × List Char) :=
  match d.deployment with
  | none => []
  | some t => (dget network_key t).getD []

/-- One reported issue of the checker, with the data printed in its line. -/
inductive Issue where
  | todo (line : List Char)
  | missingToml (net tomlField : List Char)
  | missingRs (net addrField rsFile : List Char)
  | missingDocs (net addrField header : List Char)
  | mismatchRs (net tomlField tomlAddr rsAddr : List Char)
  | mismatchDocs (net tomlField tomlAddr docsAddr : List Char)
deriving DecidableEq

/-- The per-field checks of the boundless loop (lines 148-175): presence of
the config, source and documentation values, then the two mismatch checks,
in the order the code prints them. -/
def compareField3 (net tomlField addrField header rsFile : List Char)
    (tomlNet rsAddrs docsAddrs : List (List Char × List Char)) : List Issue :=
  let t := pyLower ((dget tomlField tomlNet).getD [])
  let r := pyLower ((dget addrField rsAddrs).getD [])
  let d := pyLower ((dget addrField docsAddrs).getD [])
  (if t = [] then [Issue.missingToml net tomlField] else []) ++
  (if r = [] then [Issue.missingRs net addrField rsFile] else []) ++
  (if d = [] then [Issue.missingDocs net addrField header] else []) ++
  (if t ≠ [] ∧ r ≠ [] ∧ t ≠ r then [Issue.mismatchRs net tomlField t r] else []) ++
  (if t ≠ [] ∧ d ≠ [] ∧ t ≠ d then [Issue.mismatchDocs net tomlField t d] else [])

/-- The per-field checks of the two loops without documentation coverage
(lines 189-206 and 220-237). -/
def compareField2 (net tomlField addrField rsFile : List Char)
    (tomlNet rsAddrs : List (List Char × List Char)) : List Issue :=
  let t := pyLower ((dget tomlField tomlNet).getD [])
  let r := pyLower ((dget addrField rsAddrs).getD [])
  (if t = [] then [Issue.missingToml net tomlField] else []) ++
  (if r = [] then [Issue.missingRs net addrField rsFile] else []) ++
  (if t ≠ [] ∧ r ≠ [] ∧ t ≠ r then [Issue.mismatchRs net tomlField t r] else [])

/-- Docs section headers per boundless network (lines 112-116). -/
def boundlessNetworks : List (List Char × List Char) :=
  [ (chars "base-mainnet", chars "### Base"),
    (chars "base-sepolia", chars "### Base Sepolia"),
    (chars "ethereum-sepolia", chars "### Ethereum Sepolia") ]

/-- Docs section headers per zkc network (lines 118-121); the povw loop
iterates the same dict. -/
def zkcNetworks : List (List Char × List Char) :=
  [ (chars "ethereum-mainnet", chars "### Ethereum"),
    (chars "ethereum-sepolia", chars "### Ethereum Sepolia") ]

/-- RS const names per boundless network (lines 124-128). -/
def boundlessRsKey (net : List Char) : List Char :=
  (dget net
    [ (chars "base-mainnet", chars "BASE"),
      (chars "base-sepolia", chars "BASE_SEPOLIA"),
      (chars "ethereum-sepolia", chars "SEPOLIA") ]).getD []

/-- RS const names per zkc (and povw) network (lines 130-133). -/
def zkcRsKey (net : List Char) : List Char :=
  (dget net
    [ (chars "ethereum-mainnet", chars "MAINNET"),
      (chars "ethereum-sepolia", chars "SEPOLIA") ]).getD []

/-- Field map of the boundless loop (lines 141-146). -/
def boundlessMapping : List (List Char × List Char) :=
  [ (chars "boundless-market", chars "boundless_market_address"),
    (chars "verifier", chars "verifier_router_address"),
    (chars "set-verifier", chars "set_verifier_address"),
    (chars "collateral-token", chars "collateral_token_address") ]

/-- Field map of the zkc loop (lines 182-187); zkc-staking-rewards is
commented out in the source. -/
def zkcMapping : List (List Char × List Char) :=
  [ (chars "zkc", chars "zkc_address"),
    (chars "vezkc", chars "vezkc_address") ]

/-- Field map of the povw loop (lines 213-218). -/
def povwMapping : List (List Char × List Char) :=
  [ (chars "zkc", chars "zkc_address"),
    (chars "vezkc", chars "vezkc_address"),
    (chars "povw-accounting", chars "povw_accounting_address"),
    (chars "povw-mint", chars "povw_mint_address") ]

/-- File names printed in the Missing messages of the three loops. -/
def boundlessRsFile : List Char := chars "crates/boundless-market/src/deployments.rs"

/-- File name of the zkc loop's Missing messages. -/
def zkcRsFile : List Char := chars "crates/zkc/src/deployments.rs"

/-- File name of the povw loop's Missing messages. -/
def povwRsFile : List Char := chars "crates/povw/src/deployments.rs"

/-- The issues reported by main, in print order: the TODO scan, then the
boundless loop, the zkc loop and the povw loop. -/
def runMain (doc : TomlDoc) (rs_content zkc_rs_content povw_rs_content
    docs_content : List Char) : List Issue :=
  ((check_todos docs_content).map Issue.todo) ++
  ((boundlessNetworks.map (fun p =>
      let tomlNet := toml_section doc p.1
      let rsAddrs := extract_rs_addresses rs_content (boundlessRsKey p.1)
      let docsAddrs := extract_docs_addresses docs_content p.2
      (boundlessMapping.map (fun q =>
        compareField3 p.1 q.1 q.2 p.2 boundlessRsFile tomlNet rsAddrs docsAddrs)).flatten)).flatten) ++
  ((zkcNetworks.map (fun p =>
      let tomlNet := toml_section doc p.1
      let rsAddrs := extract_rs_addresses zkc_rs_content (zkcRsKey p.1)
      (zkcMapping.map (fun q =>
        compareField2 p.1 q.1 q.2 zkcRsFile tomlNet rsAddrs)).flatten)).flatten) ++
  ((zkcNetworks.map (fun p =>
      let tomlNet := toml_section doc p.1
      let rsAddrs := extract_rs_addresses povw_rs_content (zkcRsKey p.1)
      (povwMapping.map (fun q =>
        compareField2 p.1 q.1 q.2 povwRsFile tomlNet rsAddrs)).flatten)).flatten)

/-- The error count accumulated by main: one per reported issue. -/
def mainErrors (doc : TomlDoc) (rs zkcRs povwRs docs : List Char) : Nat :=
  (runMain doc rs zkcRs povwRs docs).length

/-- Lines 239-243: the success summary is printed exactly when no error. -/
def mainPrintsSuccess (doc : TomlDoc) (rs zkcRs povwRs docs : List Char) : Bool :=
  mainErrors doc rs zkcRs povwRs docs = 0

/-- Lines 239-243: sys.exit(1) on any error, otherwise a normal exit 0. -/
def mainExitCode (doc : TomlDoc) (rs zkcRs povwRs docs : List Char) : Nat :=
  if mainErrors doc rs zkcRs povwRs docs = 0 then 0 else 1

/-! ## The updater (contracts/update_deployment_toml.py) -/

/-- The optional CLI arguments of the updater, one per recognized field
(argparse dest names). -/
structure UpdArgs where
  admin : Option (List Char)
  verifier : Option (List Char)
  set_verifier : Option (List Char)
  boundless_market : Option (List Char)
  boundless_market_impl : Option (List Char)
  boundless_market_old_impl : Option (List Char)
  collateral_token : Option (List Char)
  assessor_image_id : Option (List Char)
  assessor_guest_url : Option (List Char)
  povw_accounting : Option (List Char)
  povw_accounting_impl : Option (List Char)
  povw_accounting_old_impl : Option (List Char)
  povw_mint : Option (List Char)
  povw_mint_impl : Option (List Char)
  povw_mint_old_impl : Option (List Char)
  povw_log_updater_id : Option (List Char)
  povw_mint_calculator_id : Option (List Char)
  povw_accounting_deployment_commit : Option (List Char)
  povw_mint_deployment_commit : Option (List Char)
  zkc : Option (List Char)
  vezkc : Option (List Char)

/-- field_mapping of the updater (lines 47-73): TOML field keys paired with
the CLI values, in the order of the dict literal. -/
def field_mapping (a : UpdArgs) : List (List Char × Option (List Char)) :=
  [ (chars "admin", a.admin),
    (chars "verifier", a.verifier),
    (chars "set-verifier", a.set_verifier),
    (chars "boundless-market", a.boundless_market),
    (chars "boundless-market-impl", a.boundless_market_impl),
    (chars "boundless-market-old-impl", a.boundless_market_old_impl),
    (chars "collateral-token", a.collateral_token),
    (chars "assessor-image-id", a.assessor_image_id),
    (chars "assessor-guest-url", a.assessor_guest_url),
    (chars "povw-accounting", a.povw_accounting),
    (chars "povw-accounting-impl", a.povw_accounting_impl),
    (chars "povw-accounting-old-impl", a.povw_accounting_old_impl),
    (chars "povw-mint", a.povw_mint),
    (chars "povw-mint-impl", a.povw_mint_impl),
    (chars "povw-mint-old-impl", a.povw_mint_old_impl),
    (chars "povw-log-updater-id", a.povw_log_updater_id),
    (chars "povw-mint-calculator-id", a.povw_mint_calculator_id),
    (chars "povw-accounting-deployment-commit", a.povw_accounting_deployment_commit),
    (chars "povw-mint-deployment-commit", a.povw_mint_deployment_commit),
    (chars "zkc", a.zkc),
    (chars "vezkc", a.vezkc) ]

/-- The parsed document as the updater manipulates it: the optional
deployment table of network subsections of string fields, plus the remaining
top-level content, which the script never touches.  Section assignment is
tomlkit-style: replace in place, append when new. -/
structure UDoc where
  deployment : Option (List (List Char × List (List Char × List Char)))
  rest : List (List Char × List Char)

/-- One iteration of the update loop of lines 86-92: a value explicitly
provided is stripped and assigned, and a confirmation line is printed. -/
def updStep (chainKey : List Char)
    (acc : List (List Char × List Char) × List (List Char))
    (kv : List Char × Option (List Char)) :
    List (List Char × List Char) × List (List Char) :=
  match kv.2 with
  | none => acc
  | some v =>
    let v' := pyStrip v
    (dinsert kv.1 v' acc.1,
     acc.2 ++ [chars "Updated '" ++ kv.1 ++ chars "' to '" ++ v' ++
               chars "' in [deployment." ++ chainKey ++ chars "]"])

/-- The update loop of lines 86-92 applied to the selected section. -/
def applyUpdates (kvs : List (List Char × Option (List Char)))
    (sec : List (List Char × List Char)) (chainKey : List Char) :
    List (List Char × List Char) × List (List Char) :=
  kvs.foldl (updStep chainKey) (sec, [])

/-- The fatal-error message of line 83. -/
def updMissingMsg (chainKey : List Char) : List Char :=
  chars "[deployment." ++ chainKey ++ chars "] section not found in contracts/deployment.toml"

/-- The updater script after parsing: look up doc[deployment][chainKey]
(KeyError on either level becomes the RuntimeError of line 83), apply the
explicit updates, and return the document to be written plus the printed
lines.  The error case reaches no write. -/
def updater_run (doc : UDoc) (chainKey : List Char) (a : UpdArgs) :
    Except (List Char) (UDoc × List (List Char)) :=
  match doc.deployment with
  | none => Except.error (updMissingMsg chainKey)
  | some dep =>
    match dget chainKey dep with
    | none => Except.error (updMissingMsg chainKey)
    | some sec =>
      let su := applyUpdates (field_mapping a) sec chainKey
      Except.ok ({ doc with deployment := some (dinsert chainKey su.1 dep) }, su.2)

/-- The document on disk after the script: the updated one on success; on
the RuntimeError the script dies before the write_text of line 97, so the
file keeps the parsed content. -/
def updater_finalDoc (doc : UDoc) (chainKey : List Char) (a : UpdArgs) : UDoc :=
  match updater_run doc chainKey a with
  | Except.ok du => du.1
  | Except.error _ => doc

/-- Line 96: normalize the serialized output - split lines, strip trailing
whitespace of each, join with newlines, and end with a final newline. -/
def normalize_output (s : List Char) : List Char :=
  (List.intercalate (chars "\n") ((pyLines s).map pyRstrip)) ++ chars "\n"

/-! ## Derived definitions used by the claims -/

/-- One tracked field is fully consistent: config, source and documentation
values all non-empty and equal, as the checker computes them (lowercased). -/
def fieldOK3 (tomlField addrField : List Char)
    (tomlNet rsAddrs docsAddrs : List (List Char × List Char)) : Prop :=
  pyLower ((dget tomlField tomlNet).getD []) ≠ [] ∧
  pyLower ((dget addrField rsAddrs).getD []) ≠ [] ∧
  pyLower ((dget addrField docsAddrs).getD []) ≠ [] ∧
  pyLower ((dget tomlField tomlNet).getD []) =
    pyLower ((dget addrField rsAddrs).getD []) ∧
  pyLower ((dget tomlField tomlNet).getD []) =
    pyLower ((dget addrField docsAddrs).getD [])

/-- Consistency of a field of a group without documentation coverage. -/
def fieldOK2 (tomlField addrField : List Char)
    (tomlNet rsAddrs : List (List Char × List Char)) : Prop :=
  pyLower ((dget tomlField tomlNet).getD []) ≠ [] ∧
  pyLower ((dget addrField rsAddrs).getD []) ≠ [] ∧
  pyLower ((dget tomlField tomlNet).getD []) =
    pyLower ((dget addrField rsAddrs).getD [])

/-- All tracked fields of all groups are consistent across the three sources
and the documentation has no TODO line. -/
def ConsistentInputs (doc : TomlDoc) (rs zkcRs povwRs docs : List Char) : Prop :=
  check_todos docs = [] ∧
  (∀ p ∈ boundlessNetworks, ∀ q ∈ boundlessMapping,
    fieldOK3 q.1 q.2 (toml_section doc p.1)
      (extract_rs_addresses rs (boundlessRsKey p.1))
      (extract_docs_addresses docs p.2)) ∧
  (∀ p ∈ zkcNetworks, ∀ q ∈ zkcMapping,
    fieldOK2 q.1 q.2 (toml_section doc p.1)
      (extract_rs_addresses zkcRs (zkcRsKey p.1))) ∧
  (∀ p ∈ zkcNetworks, ∀ q ∈ povwMapping,
    fieldOK2 q.1 q.2 (toml_section doc p.1)
      (extract_rs_addresses povwRs (zkcRsKey p.1)))

instance (tomlField addrField : List Char)
    (tomlNet rsAddrs docsAddrs : List (List Char × List Char)) :
    Decidable (fieldOK3 tomlField addrField tomlNet rsAddrs docsAddrs) := by
  unfold fieldOK3; infer_instance

instance (tomlField addrField : List Char)
    (tomlNet rsAddrs : List (List Char × List Char)) :
    Decidable (fieldOK2 tomlField addrField tomlNet rsAddrs) := by
  unfold fieldOK2; infer_instance

instance (doc : TomlDoc) (rs zkcRs povwRs docs : List Char) :
    Decidable (ConsistentInputs doc rs zkcRs povwRs docs) := by
  unfold ConsistentInputs; infer_instance

/-- A consistent fixture: the address used everywhere. -/
def addrA : List Char := chars "0xaaaaaaaaaaaaaaaaaaaaaaaaaaaaaaaaaaaaaaaa"

/-- One field entry of a fixture constant block. -/
def aEntry (fieldName : String) : List Char :=
  chars fieldName ++ chars ": address!(\x22" ++ addrA ++ chars "\x22), "

/-- One fixture constant block. -/
def rsConstBlock (constName : String) (fields : List Char) : List Char :=
  chars "pub const " ++ chars constName ++ chars ": Deployment = Deployment \x7b " ++
    fields ++ chars "\x7d;\n"

/-- Fixture fields of the boundless-market blocks. -/
def bmFieldsFix : List Char :=
  aEntry "boundless_market_address" ++ aEntry "verifier_router_address" ++
    aEntry "set_verifier_address" ++ aEntry "collateral_token_address"

/-- Fixture fields of the zkc blocks. -/
def zkFieldsFix : List Char := aEntry "zkc_address" ++ aEntry "vezkc_address"

/-- Fixture fields of the povw blocks. -/
def povwFieldsFix : List Char :=
  zkFieldsFix ++ aEntry "povw_accounting_address" ++ aEntry "povw_mint_address"

/-- Fixture boundless-market source file. -/
def rsFix : List Char :=
  rsConstBlock "BASE" bmFieldsFix ++ rsConstBlock "BASE_SEPOLIA" bmFieldsFix ++
    rsConstBlock "SEPOLIA" bmFieldsFix

/-- Fixture zkc source file. -/
def zkcRsFix : List Char :=
  rsConstBlock "MAINNET" zkFieldsFix ++ rsConstBlock "SEPOLIA" zkFieldsFix

/-- Fixture povw source file. -/
def povwRsFix : List Char :=
  rsConstBlock "MAINNET" povwFieldsFix ++ rsConstBlock "SEPOLIA" povwFieldsFix

/-- One fixture documentation line. -/
def docsLine (label : String) : List Char :=
  chars label ++ chars " " ++ addrA ++ chars "\n"

/-- Fixture documentation section body. -/
def docsBodyFix : List Char :=
  docsLine "BoundlessMarket" ++ docsLine "SetVerifier" ++
    docsLine "RiscZeroVerifierRouter" ++ docsLine "CollateralToken"

/-- Fixture documentation file, one section per boundless network. -/
def docsFix : List Char :=
  chars "### Base\n" ++ docsBodyFix ++ chars "### Base Sepolia\n" ++ docsBodyFix ++
    chars "### Ethereum Sepolia\n" ++ docsBodyFix

/-- One fixture config field. -/
def tomlPairA (k : String) : List Char × List Char := (chars k, addrA)

/-- Fixture config fields of a boundless network. -/
def bmTomlFix : List (List Char × List Char) :=
  [tomlPairA "boundless-market", tomlPairA "verifier",
   tomlPairA "set-verifier", tomlPairA "collateral-token"]

/-- Fixture config fields of the zkc and povw groups. -/
def zkTomlFix : List (List Char × List Char) :=
  [tomlPairA "zkc", tomlPairA "vezkc",
   tomlPairA "povw-accounting", tomlPairA "povw-mint"]

/-- Fixture config document. -/
def tomlFix : TomlDoc :=
  ⟨some [ (chars "base-mainnet", bmTomlFix),
          (chars "base-sepolia", bmTomlFix),
          (chars "ethereum-sepolia", bmTomlFix ++ zkTomlFix),
          (chars "ethereum-mainnet", zkTomlFix) ]⟩

/-- The documentation line carried by a TODO issue, none for other issues. -/
def Issue.todoLine : Issue → Option (List Char)
  | .todo line => some line
  | _ => none


/-- Witness fixture of claim C9: only the admin argument supplied, with
surrounding whitespace. -/
def argsW9 : UpdArgs :=
  ⟨some (chars "  0xDEF  "), none, none, none, none, none, none, none, none,
   none, none, none, none, none, none, none, none, none, none, none, none⟩

/-- Witness fixture of claim C9: the selected network subsection. -/
def secW9 : List (List Char × List Char) := [(chars "zkc", chars "0x1")]

/-- Witness fixture of claim C9: the deployment table. -/
def depW9 : List (List Char × List (List Char × List Char)) :=
  [(chars "anvil", secW9), (chars "other", [(chars "zkc", chars "0x2")])]

/-- Witness fixture of claim C9: the parsed document. -/
def docW9 : UDoc := ⟨some depW9, [(chars "k", chars "v")]⟩

/-- The character just before position i of the text, given the character
preceding the whole text (none at the very start). -/
def prevAt (p0 : Option Char) (l : List Char) : Nat → Option Char
  | 0 => p0
  | j + 1 => l.get? j

/-- An address payload as in the regex: 0x then exactly 40 hex digits. -/
def IsAddr (a : List Char) : Prop :=
  ∃ h, a = '0' :: 'x' :: h ∧ h.length = 40 ∧ ∀ c ∈ h, isHexCh c = true

/-- A lowercase hex digit. -/
def isLowerHexCh (c : Char) : Bool :=
  (decide ('0' ≤ c) && decide (c ≤ '9')) || (decide ('a' ≤ c) && decide (c ≤ 'f'))

/-- A lowercase address string: 0x then exactly 40 lowercase hex digits. -/
def IsLowerAddr (a : List Char) : Prop :=
  ∃ h, a = '0' :: 'x' :: h ∧ h.length = 40 ∧ ∀ c ∈ h, isLowerHexCh c = true

/-- Length of a label pattern. -/
def patLen : LabelPat → Nat
  | .plain p => p.length
  | .word p => p.length

/-- The label occurs at position i of the section (with its word boundaries
satisfied for word-bounded labels). -/
def labelOccursAt : LabelPat → List Char → Nat → Prop
  | .plain p, s, i => (s.drop i).take p.length = p
  | .word p, s, i =>
    (s.drop i).take p.length = p ∧ boundaryB (prevAt none s i) = true ∧
    boundaryHead (s.drop (i + p.length)) = true

/-- A 0x 40-hex-digit address starts at position j of the section. -/
def AddrAt (s : List Char) (j : Nat) : Prop :=
  (s.drop j).take 2 = chars "0x" ∧ ((s.drop (j + 2)).take 40).length = 40 ∧
  ∀ c ∈ (s.drop (j + 2)).take 40, isHexCh c = true

/-- No newline strictly between the two positions. -/
def SameLine (s : List Char) (a b : Nat) : Prop :=
  ∀ k, k < b → a ≤ k → s.get? k ≠ some '\n'

/-- A same-line pairing of a label occurrence with a following address:
the declarative content of one grab match. -/
def GrabPair (pat : LabelPat) (s : List Char) (i j : Nat) : Prop :=
  labelOccursAt pat s i ∧ i + patLen pat ≤ j ∧
  SameLine s (i + patLen pat) j ∧ AddrAt s j

instance (pat : LabelPat) (s : List Char) (i : Nat) :
    Decidable (labelOccursAt pat s i) := by
  cases pat <;> (unfold labelOccursAt; infer_instance)

instance (s : List Char) (j : Nat) : Decidable (AddrAt s j) := by
  unfold AddrAt; infer_instance

instance (s : List Char) (a b : Nat) : Decidable (SameLine s a b) := by
  unfold SameLine; infer_instance

instance (pat : LabelPat) (s : List Char) (i j : Nat) :
    Decidable (GrabPair pat s i j) := by
  unfold GrabPair; infer_instance

/-! ## Theorems -/

/-- Claim C2: for every tracked field whose config value is non-empty but
whose source-code extracted value is empty, the per-field comparison (with
or without documentation coverage) reports exactly one Missing error for the
source side of that field and no Missing error for the config side. -/
theorem claim_C2 (net tomlField addrField header rsFile : List Char)
    (tomlNet rsAddrs docsAddrs : List (List Char × List Char))
    (ht : pyLower ((dget tomlField tomlNet).getD []) ≠ [])
    (hr : pyLower ((dget addrField rsAddrs).getD []) = []) :
    ((compareField3 net tomlField addrField header rsFile tomlNet rsAddrs docsAddrs).count
        (Issue.missingRs net addrField rsFile) = 1 ∧
      (compareField3 net tomlField addrField header rsFile tomlNet rsAddrs docsAddrs).count
        (Issue.missingToml net tomlField) = 0) ∧
    ((compareField2 net tomlField addrField rsFile tomlNet rsAddrs).count
        (Issue.missingRs net addrField rsFile) = 1 ∧
      (compareField2 net tomlField addrField rsFile tomlNet rsAddrs).count
        (Issue.missingToml net tomlField) = 0) := by
  simp only [compareField3, compareField2]
  split_ifs with h1 h2 h3 h4 h5 h6 h7 h8 h9 h10 h11 h12 h13 h14 h15 <;>
    simp_all [List.count_append, List.count_cons, List.count_nil]

/-- A fully consistent field produces no issue in the three-way comparison. -/
theorem compareField3_eq_nil (net tomlField addrField header rsFile : List Char)
    (tomlNet rsAddrs docsAddrs : List (List Char × List Char))
    (h : fieldOK3 tomlField addrField tomlNet rsAddrs docsAddrs) :
    compareField3 net tomlField addrField header rsFile tomlNet rsAddrs docsAddrs = [] := by
  obtain ⟨h1, h2, h3, h4, h5⟩ := h
  simp only [compareField3]
  split_ifs with a b c d e <;> simp_all

/-- A fully consistent field produces no issue in the two-way comparison. -/
theorem compareField2_eq_nil (net tomlField addrField rsFile : List Char)
    (tomlNet rsAddrs : List (List Char × List Char))
    (h : fieldOK2 tomlField addrField tomlNet rsAddrs) :
    compareField2 net tomlField addrField rsFile tomlNet rsAddrs = [] := by
  obtain ⟨h1, h2, h3⟩ := h
  simp only [compareField2]
  split_ifs with a b c <;> simp_all

/-- A flattened map over a list whose image is all empty lists is empty. -/
theorem flatten_map_eq_nil {α β : Type} (l : List α) (f : α → List β)
    (h : ∀ x ∈ l, f x = []) : (l.map f).flatten = [] := by
  induction l with
  | nil => rfl
  | cons a t ih => simp_all

/-- Claim C1: when every tracked field of every group is present with equal
values in the config, the sources and (where applicable) the documentation,
and the documentation has no TODO line, the checker reports zero issues,
prints the success summary and exits 0; conversely any reported issue makes
the exit code 1. -/
theorem claim_C1 (doc : TomlDoc) (rs zkcRs povwRs docs : List Char) :
    (ConsistentInputs doc rs zkcRs povwRs docs →
      runMain doc rs zkcRs povwRs docs = [] ∧
      mainPrintsSuccess doc rs zkcRs povwRs docs = true ∧
      mainExitCode doc rs zkcRs povwRs docs = 0) ∧
    (runMain doc rs zkcRs povwRs docs ≠ [] →
      mainExitCode doc rs zkcRs povwRs docs = 1) := by
  constructor
  · rintro ⟨htodo, hb, hz, hp⟩
    have hmain : runMain doc rs zkcRs povwRs docs = [] := by
      unfold runMain
      rw [htodo]
      simp only [List.map_nil, List.nil_append, List.append_eq_nil]
      refine ⟨⟨?_, ?_⟩, ?_⟩
      · exact flatten_map_eq_nil _ _ (fun p hp' =>
          flatten_map_eq_nil _ _ (fun q hq =>
            compareField3_eq_nil _ _ _ _ _ _ _ _ (hb p hp' q hq)))
      · exact flatten_map_eq_nil _ _ (fun p hp' =>
          flatten_map_eq_nil _ _ (fun q hq =>
            compareField2_eq_nil _ _ _ _ _ _ (hz p hp' q hq)))
      · exact flatten_map_eq_nil _ _ (fun p hp' =>
          flatten_map_eq_nil _ _ (fun q hq =>
            compareField2_eq_nil _ _ _ _ _ _ (hp p hp' q hq)))
    refine ⟨hmain, ?_, ?_⟩ <;> simp [mainPrintsSuccess, mainExitCode, mainErrors, hmain]
  · intro h
    unfold mainExitCode mainErrors
    rw [if_neg]
    intro h0
    exact h (List.length_eq_zero.mp h0)

set_option maxRecDepth 16000 in
/-- Witness of claim C1: the consistent fixture reports nothing, prints the
success summary and exits 0. -/
theorem claim_C1_witness :
    ConsistentInputs tomlFix rsFix zkcRsFix povwRsFix docsFix ∧
    (runMain tomlFix rsFix zkcRsFix povwRsFix docsFix = [] ∧
     mainPrintsSuccess tomlFix rsFix zkcRsFix povwRsFix docsFix = true ∧
     mainExitCode tomlFix rsFix zkcRsFix povwRsFix docsFix = 0) := by
  have h : ConsistentInputs tomlFix rsFix zkcRsFix povwRsFix docsFix := by decide
  exact ⟨h, (claim_C1 tomlFix rsFix zkcRsFix povwRsFix docsFix).1 h⟩

/-- Witness of claim C2: config value present, source value absent - exactly
one Missing error for the source side, none for the config side. -/
theorem claim_C2_witness :
    ((compareField3 (chars "n") (chars "f") (chars "a") (chars "h") (chars "r")
        [(chars "f", chars "0x1")] [] []).count
        (Issue.missingRs (chars "n") (chars "a") (chars "r")) = 1 ∧
      (compareField3 (chars "n") (chars "f") (chars "a") (chars "h") (chars "r")
        [(chars "f", chars "0x1")] [] []).count
        (Issue.missingToml (chars "n") (chars "f")) = 0) ∧
    ((compareField2 (chars "n") (chars "f") (chars "a") (chars "r")
        [(chars "f", chars "0x1")] []).count
        (Issue.missingRs (chars "n") (chars "a") (chars "r")) = 1 ∧
      (compareField2 (chars "n") (chars "f") (chars "a") (chars "r")
        [(chars "f", chars "0x1")] []).count
        (Issue.missingToml (chars "n") (chars "f")) = 0) :=
  claim_C2 (chars "n") (chars "f") (chars "a") (chars "h") (chars "r")
    [(chars "f", chars "0x1")] [] [] (by decide) (by decide)

/-- The three-way field comparison never produces a TODO issue. -/
theorem todoLine_compareField3 (net tomlField addrField header rsFile : List Char)
    (tomlNet rsAddrs docsAddrs : List (List Char × List Char)) :
    ∀ i ∈ compareField3 net tomlField addrField header rsFile tomlNet rsAddrs docsAddrs,
      Issue.todoLine i = none := by
  have h : (compareField3 net tomlField addrField header rsFile tomlNet rsAddrs
      docsAddrs).filterMap Issue.todoLine = [] := by
    simp only [compareField3]
    split_ifs <;> simp [Issue.todoLine]
  exact List.filterMap_eq_nil_iff.mp h

/-- The two-way field comparison never produces a TODO issue. -/
theorem todoLine_compareField2 (net tomlField addrField rsFile : List Char)
    (tomlNet rsAddrs : List (List Char × List Char)) :
    ∀ i ∈ compareField2 net tomlField addrField rsFile tomlNet rsAddrs,
      Issue.todoLine i = none := by
  have h : (compareField2 net tomlField addrField rsFile tomlNet
      rsAddrs).filterMap Issue.todoLine = [] := by
    simp only [compareField2]
    split_ifs <;> simp [Issue.todoLine]
  exact List.filterMap_eq_nil_iff.mp h

/-- Claim C7: the TODO issues reported by the checker are exactly the
documentation lines containing the TODO marker, one issue per line and in
order; and the presence of any such line forces exit code 1. -/
theorem claim_C7 (doc : TomlDoc) (rs zkcRs povwRs docs : List Char) :
    (runMain doc rs zkcRs povwRs docs).filterMap Issue.todoLine =
      (pyLines docs).filter (fun line => containsSub (chars "TODO") line) ∧
    ((pyLines docs).any (fun line => containsSub (chars "TODO") line) = true →
      mainExitCode doc rs zkcRs povwRs docs = 1) := by
  constructor
  · unfold runMain
    rw [List.filterMap_append, List.filterMap_append, List.filterMap_append]
    have hmapped : ∀ L : List (List Char),
        (L.map Issue.todo).filterMap Issue.todoLine = L := by
      intro L
      induction L with
      | nil => rfl
      | cons a t ih => simp [Issue.todoLine, ih]
    have hflat : ∀ (L : List (List Char × List Char))
        (g : List Char × List Char → List Char × List Char → List Issue)
        (M : List (List Char × List Char)),
        (∀ p ∈ L, ∀ q ∈ M, ∀ i ∈ g p q, Issue.todoLine i = none) →
        ((L.map (fun p => (M.map (g p)).flatten)).flatten).filterMap Issue.todoLine = [] := by
      intro L g M h
      rw [List.filterMap_eq_nil_iff]
      intro i hi
      rw [List.mem_flatten] at hi
      obtain ⟨x, hx, hix⟩ := hi
      rw [List.mem_map] at hx
      obtain ⟨p, hp', rfl⟩ := hx
      rw [List.mem_flatten] at hix
      obtain ⟨y, hy, hiy⟩ := hix
      rw [List.mem_map] at hy
      obtain ⟨q, hq, rfl⟩ := hy
      exact h p hp' q hq i hiy
    rw [hmapped,
      hflat boundlessNetworks
        (fun p q => compareField3 p.1 q.1 q.2 p.2 boundlessRsFile (toml_section doc p.1)
          (extract_rs_addresses rs (boundlessRsKey p.1)) (extract_docs_addresses docs p.2))
        boundlessMapping
        (fun p _ q _ => todoLine_compareField3 _ _ _ _ _ _ _ _),
      hflat zkcNetworks
        (fun p q => compareField2 p.1 q.1 q.2 zkcRsFile (toml_section doc p.1)
          (extract_rs_addresses zkcRs (zkcRsKey p.1)))
        zkcMapping
        (fun p _ q _ => todoLine_compareField2 _ _ _ _ _ _),
      hflat zkcNetworks
        (fun p q => compareField2 p.1 q.1 q.2 povwRsFile (toml_section doc p.1)
          (extract_rs_addresses povwRs (zkcRsKey p.1)))
        povwMapping
        (fun p _ q _ => todoLine_compareField2 _ _ _ _ _ _)]
    simp [check_todos]
  · intro hany
    unfold mainExitCode mainErrors
    rw [if_neg]
    intro h0
    rw [List.length_eq_zero] at h0
    unfold runMain at h0
    rw [List.append_eq_nil, List.append_eq_nil, List.append_eq_nil] at h0
    have hct : check_todos docs = [] := by simpa using h0.1.1.1
    rw [List.any_eq_true] at hany
    obtain ⟨line, hl, hp'⟩ := hany
    have : line ∈ check_todos docs := List.mem_filter.mpr ⟨hl, hp'⟩
    simp_all

/-- Witness of claim C7: a documentation consisting of the single line
TODO: fill in mainnet address yields exactly that one TODO issue and exit 1. -/
theorem claim_C7_witness :
    (runMain ⟨none⟩ [] [] [] (chars "TODO: fill in mainnet address")).filterMap
        Issue.todoLine = [chars "TODO: fill in mainnet address"] ∧
    mainExitCode ⟨none⟩ [] [] [] (chars "TODO: fill in mainnet address") = 1 := by
  have h := claim_C7 ⟨none⟩ [] [] [] (chars "TODO: fill in mainnet address")
  refine ⟨?_, h.2 (by decide)⟩
  rw [h.1]
  decide

/-- Claim C5: a mismatch error between config and source (or config and
documentation) is reported exactly when both lowercased values are non-empty
and differ; in particular values differing only in letter case produce no
mismatch error. -/
theorem claim_C5 (net tomlField addrField header rsFile x y z w : List Char)
    (tomlNet rsAddrs docsAddrs : List (List Char × List Char)) :
    (Issue.mismatchRs x y z w ∈
        compareField3 net tomlField addrField header rsFile tomlNet rsAddrs docsAddrs ↔
      x = net ∧ y = tomlField ∧ z = pyLower ((dget tomlField tomlNet).getD []) ∧
        w = pyLower ((dget addrField rsAddrs).getD []) ∧
        pyLower ((dget tomlField tomlNet).getD []) ≠ [] ∧
        pyLower ((dget addrField rsAddrs).getD []) ≠ [] ∧
        pyLower ((dget tomlField tomlNet).getD []) ≠
          pyLower ((dget addrField rsAddrs).getD [])) ∧
    (Issue.mismatchDocs x y z w ∈
        compareField3 net tomlField addrField header rsFile tomlNet rsAddrs docsAddrs ↔
      x = net ∧ y = tomlField ∧ z = pyLower ((dget tomlField tomlNet).getD []) ∧
        w = pyLower ((dget addrField docsAddrs).getD []) ∧
        pyLower ((dget tomlField tomlNet).getD []) ≠ [] ∧
        pyLower ((dget addrField docsAddrs).getD []) ≠ [] ∧
        pyLower ((dget tomlField tomlNet).getD []) ≠
          pyLower ((dget addrField docsAddrs).getD [])) ∧
    (Issue.mismatchRs x y z w ∈
        compareField2 net tomlField addrField rsFile tomlNet rsAddrs ↔
      x = net ∧ y = tomlField ∧ z = pyLower ((dget tomlField tomlNet).getD []) ∧
        w = pyLower ((dget addrField rsAddrs).getD []) ∧
        pyLower ((dget tomlField tomlNet).getD []) ≠ [] ∧
        pyLower ((dget addrField rsAddrs).getD []) ≠ [] ∧
        pyLower ((dget tomlField tomlNet).getD []) ≠
          pyLower ((dget addrField rsAddrs).getD [])) := by
  simp only [compareField3, compareField2]
  split_ifs with h1 h2 h3 h4 h5 h6 h7 h8 h9 h10 h11 h12 h13 h14 h15 <;>
    (simp_all [List.mem_append]; try tauto)

/-! ### Updater lemmas and claims C8, C9 -/

/-- Lookup after in-place insertion at the same key. -/
theorem dget_dinsert_self {α : Type} (k : List Char) (v : α)
    (m : List (List Char × α)) : dget k (dinsert k v m) = some v := by
  induction m with
  | nil => simp [dget, dinsert]
  | cons kv rest ih =>
    by_cases h : kv.1 = k <;> simp [dget, dinsert, h, ih]

/-- Lookup after in-place insertion at a different key. -/
theorem dget_dinsert_ne {α : Type} (k k' : List Char) (v : α)
    (m : List (List Char × α)) (h : k ≠ k') :
    dget k' (dinsert k v m) = dget k' m := by
  induction m with
  | nil => simp [dget, dinsert, h]
  | cons kv rest ih =>
    by_cases h1 : kv.1 = k <;> by_cases h2 : kv.1 = k' <;>
      simp_all [dget, dinsert]

/-- A key that never occurs looks up to none. -/
theorem dget_eq_none_of_not_mem {α : Type} (k : List Char)
    (m : List (List Char × α)) (h : k ∉ m.map Prod.fst) : dget k m = none := by
  induction m with
  | nil => rfl
  | cons kv rest ih =>
    simp only [List.map_cons, List.mem_cons] at h
    push_neg at h
    simp only [dget, if_neg (Ne.symm h.1)]
    exact ih h.2

/-- The section component of the update fold does not depend on the
accumulated log lines. -/
theorem foldl_updStep_fst (chainKey : List Char)
    (kvs : List (List Char × Option (List Char))) :
    ∀ (sec : List (List Char × List Char)) (logs logs' : List (List Char)),
      (kvs.foldl (updStep chainKey) (sec, logs)).1 =
        (kvs.foldl (updStep chainKey) (sec, logs')).1 := by
  induction kvs with
  | nil => intro sec logs logs'; rfl
  | cons kv rest ih =>
    intro sec logs logs'
    cases hv : kv.2 with
    | none => simp only [List.foldl_cons, updStep, hv]; exact ih _ _ _
    | some v => simp only [List.foldl_cons, updStep, hv]; exact ih _ _ _

/-- Fields whose key is not in the update list are unchanged. -/
theorem applyUpdates_dget_of_absent (chainKey k : List Char)
    (kvs : List (List Char × Option (List Char))) :
    ∀ (sec : List (List Char × List Char)), dget k kvs = none →
      dget k (applyUpdates kvs sec chainKey).1 = dget k sec := by
  induction kvs with
  | nil => intro sec _; rfl
  | cons kv rest ih =>
    intro sec h
    simp only [dget] at h
    by_cases hk : kv.1 = k
    · simp [hk] at h
    · simp only [hk, if_neg, ite_false] at h
      cases hv : kv.2 with
      | none =>
        have e : applyUpdates (kv :: rest) sec chainKey =
            rest.foldl (updStep chainKey) (sec, []) := by
          simp [applyUpdates, List.foldl_cons, updStep, hv]
        rw [e]
        exact ih sec h
      | some v =>
        have e : (applyUpdates (kv :: rest) sec chainKey).1 =
            (applyUpdates rest (dinsert kv.1 (pyStrip v) sec) chainKey).1 := by
          simp only [applyUpdates, List.foldl_cons, updStep, hv]
          exact foldl_updStep_fst _ _ _ _ _
        rw [e, ih _ h, dget_dinsert_ne _ _ _ _ hk]

/-- Characterization of a field of the updated section: a supplied value is
written stripped, everything else is untouched (keys of the update list
assumed distinct, as the literal field_mapping's are). -/
theorem applyUpdates_dget (chainKey k : List Char)
    (kvs : List (List Char × Option (List Char))) :
    ∀ (sec : List (List Char × List Char)), (kvs.map Prod.fst).Nodup →
      dget k (applyUpdates kvs sec chainKey).1 =
        (match dget k kvs with
         | some (some v) => some (pyStrip v)
         | some none => dget k sec
         | none => dget k sec) := by
  induction kvs with
  | nil => intro sec _; rfl
  | cons kv rest ih =>
    intro sec hnd
    simp only [List.map_cons, List.nodup_cons] at hnd
    by_cases hk : kv.1 = k
    · have habs : dget k rest = none := by
        apply dget_eq_none_of_not_mem
        rw [← hk]
        exact hnd.1
      cases hv : kv.2 with
      | none =>
        have e : applyUpdates (kv :: rest) sec chainKey =
            rest.foldl (updStep chainKey) (sec, []) := by
          simp [applyUpdates, List.foldl_cons, updStep, hv]
        rw [e]
        have h2 := applyUpdates_dget_of_absent chainKey k rest sec habs
        rw [applyUpdates] at h2
        rw [h2]
        simp [dget, hk, hv]
      | some v =>
        have e : (applyUpdates (kv :: rest) sec chainKey).1 =
            (applyUpdates rest (dinsert kv.1 (pyStrip v) sec) chainKey).1 := by
          simp only [applyUpdates, List.foldl_cons, updStep, hv]
          exact foldl_updStep_fst _ _ _ _ _
        rw [e, applyUpdates_dget_of_absent chainKey k rest _ habs, hk,
          dget_dinsert_self]
        simp [dget, hk, hv]
    · have e1 : dget k (kv :: rest) = dget k rest := by simp [dget, hk]
      cases hv : kv.2 with
      | none =>
        have e : applyUpdates (kv :: rest) sec chainKey =
            rest.foldl (updStep chainKey) (sec, []) := by
          simp [applyUpdates, List.foldl_cons, updStep, hv]
        rw [e, e1]
        exact ih sec hnd.2
      | some v =>
        have e : (applyUpdates (kv :: rest) sec chainKey).1 =
            (applyUpdates rest (dinsert kv.1 (pyStrip v) sec) chainKey).1 := by
          simp only [applyUpdates, List.foldl_cons, updStep, hv]
          exact foldl_updStep_fst _ _ _ _ _
        rw [e, e1, ih _ hnd.2, dget_dinsert_ne _ _ _ _ hk]

/-- The 21 field keys of the update mapping are distinct. -/
theorem field_mapping_keys_nodup (a : UpdArgs) :
    ((field_mapping a).map Prod.fst).Nodup := by
  show ([chars "admin", chars "verifier", chars "set-verifier",
    chars "boundless-market", chars "boundless-market-impl",
    chars "boundless-market-old-impl", chars "collateral-token",
    chars "assessor-image-id", chars "assessor-guest-url",
    chars "povw-accounting", chars "povw-accounting-impl",
    chars "povw-accounting-old-impl", chars "povw-mint",
    chars "povw-mint-impl", chars "povw-mint-old-impl",
    chars "povw-log-updater-id", chars "povw-mint-calculator-id",
    chars "povw-accounting-deployment-commit",
    chars "povw-mint-deployment-commit", chars "zkc",
    chars "vezkc"] : List (List Char)).Nodup
  decide

/-- Claim C8: when the document has no subsection for the selected network
under the top-level deployment namespace, the updater fails with the fatal
error of line 83 and the file is left as it was (the write of line 97 is
never reached). -/
theorem claim_C8 (doc : UDoc) (chainKey : List Char) (a : UpdArgs)
    (h : doc.deployment.bind (fun dep => dget chainKey dep) = none) :
    updater_run doc chainKey a = Except.error (updMissingMsg chainKey) ∧
    updater_finalDoc doc chainKey a = doc := by
  cases hd : doc.deployment with
  | none => simp [updater_run, updater_finalDoc, hd]
  | some dep =>
    rw [hd] at h
    simp only [Option.some_bind] at h
    simp [updater_run, updater_finalDoc, hd, h]

/-- Witness of claim C8: a document whose deployment table has only another
network is left unchanged and the run errors out. -/
theorem claim_C8_witness :
    updater_run ⟨some [(chars "base-mainnet", [])], []⟩ (chars "anvil")
        ⟨none, none, none, none, none, none, none, none, none, none, none,
         none, none, none, none, none, none, none, none, none, none⟩ =
      Except.error (updMissingMsg (chars "anvil")) ∧
    updater_finalDoc ⟨some [(chars "base-mainnet", [])], []⟩ (chars "anvil")
        ⟨none, none, none, none, none, none, none, none, none, none, none,
         none, none, none, none, none, none, none, none, none, none⟩ =
      ⟨some [(chars "base-mainnet", [])], []⟩ :=
  claim_C8 ⟨some [(chars "base-mainnet", [])], []⟩ (chars "anvil")
    ⟨none, none, none, none, none, none, none, none, none, none, none,
     none, none, none, none, none, none, none, none, none, none⟩
    (by decide)

/-- Claim C9: on an existing network subsection the updater succeeds; every
explicitly supplied field is written whitespace-trimmed into that subsection,
every field not supplied is unchanged, every other network subsection is
unchanged, and the content outside the deployment table is unchanged. -/
theorem claim_C9 (doc : UDoc) (chainKey : List Char) (a : UpdArgs)
    (dep : List (List Char × List (List Char × List Char)))
    (sec : List (List Char × List Char))
    (hdep : doc.deployment = some dep)
    (hsec : dget chainKey dep = some sec) :
    ∃ d' logs, updater_run doc chainKey a = Except.ok (d', logs) ∧
      d'.rest = doc.rest ∧
      ∃ dep', d'.deployment = some dep' ∧
        (∀ net, net ≠ chainKey → dget net dep' = dget net dep) ∧
        ∃ sec', dget chainKey dep' = some sec' ∧
          (∀ k v, dget k (field_mapping a) = some (some v) →
            dget k sec' = some (pyStrip v)) ∧
          (∀ k, dget k (field_mapping a) = none ∨
              dget k (field_mapping a) = some none →
            dget k sec' = dget k sec) := by
  have hrun : updater_run doc chainKey a =
      Except.ok ({ doc with deployment := some (dinsert chainKey
          (applyUpdates (field_mapping a) sec chainKey).1 dep) },
        (applyUpdates (field_mapping a) sec chainKey).2) := by
    simp [updater_run, hdep, hsec]
  refine ⟨_, _, hrun, rfl,
    dinsert chainKey (applyUpdates (field_mapping a) sec chainKey).1 dep, rfl,
    ?_, (applyUpdates (field_mapping a) sec chainKey).1,
    dget_dinsert_self _ _ _, ?_, ?_⟩
  · intro net hne
    exact dget_dinsert_ne _ _ _ _ (Ne.symm hne)
  · intro k v hkv
    rw [applyUpdates_dget chainKey k (field_mapping a) sec
      (field_mapping_keys_nodup a), hkv]
  · intro k hkv
    rw [applyUpdates_dget chainKey k (field_mapping a) sec
      (field_mapping_keys_nodup a)]
    rcases hkv with h | h <;> rw [h]

/-- Witness of claim C9: the fixture document is updated at its admin field
only, trimmed, with the other network and the rest untouched. -/
theorem claim_C9_witness :
    ∃ d' logs, updater_run docW9 (chars "anvil") argsW9 = Except.ok (d', logs) ∧
      d'.rest = docW9.rest ∧
      ∃ dep', d'.deployment = some dep' ∧
        (∀ net, net ≠ chars "anvil" → dget net dep' = dget net depW9) ∧
        ∃ sec', dget (chars "anvil") dep' = some sec' ∧
          (∀ k v, dget k (field_mapping argsW9) = some (some v) →
            dget k sec' = some (pyStrip v)) ∧
          (∀ k, dget k (field_mapping argsW9) = none ∨
              dget k (field_mapping argsW9) = some none →
            dget k sec' = dget k secW9) :=
  claim_C9 docW9 (chars "anvil") argsW9 depW9 secW9 rfl (by decide)

/-! ### Lemmas about the scanning primitives -/

/-- A literal matches its own prefix. -/
theorem lit_self_append (p r : List Char) : lit p (p ++ r) = some r := by
  induction p with
  | nil => rfl
  | cons c cs ih => simp [lit, ih]

/-- A literal fails on a text with a different first character. -/
theorem lit_cons_ne (c p : Char) (ps cs : List Char) (h : c ≠ p) :
    lit (p :: ps) (c :: cs) = none := by
  simp [lit, h]

/-- Characterization of a successful literal match. -/
theorem lit_eq_some_iff (p l r : List Char) :
    lit p l = some r ↔ l.take p.length = p ∧ r = l.drop p.length := by
  induction p generalizing l with
  | nil => simp [lit, eq_comm]
  | cons c cs ih =>
    cases l with
    | nil => simp [lit]
    | cons d ds =>
      by_cases hd : d = c
      · subst hd
        simp [lit, ih]
      · simp [lit, hd, Ne.symm hd]

/-- A left-to-right scan fails exactly when the matcher fails at every
position of the text. -/
theorem scanFirst_eq_none_iff {α : Type} (f : List Char → Option α)
    (l : List Char) :
    scanFirst f l = none ↔ ∀ i, i ≤ l.length → f (l.drop i) = none := by
  induction l with
  | nil =>
    constructor
    · intro h i _
      simpa [List.drop_nil] using h
    · intro h
      simpa using h 0 (Nat.le_refl 0)
  | cons c cs ih =>
    simp only [scanFirst]
    cases hf : f (c :: cs) with
    | some a =>
      simp only [reduceCtorEq, false_iff]
      intro h
      have := h 0 (Nat.zero_le _)
      rw [List.drop_zero] at this
      rw [this] at hf
      exact Option.noConfusion hf
    | none =>
      rw [ih]
      constructor
      · intro h i hi
        cases i with
        | zero => simpa using hf
        | succ j => exact h j (Nat.le_of_succ_le_succ hi)
      · intro h i hi
        exact h (i + 1) (Nat.succ_le_succ hi)

/-- A left-to-right scan succeeds exactly at the first position where the
matcher succeeds. -/
theorem scanFirst_eq_some_iff {α : Type} (f : List Char → Option α)
    (l : List Char) (a : α) :
    scanFirst f l = some a ↔
      ∃ i, i ≤ l.length ∧ f (l.drop i) = some a ∧
        ∀ k, k < i → f (l.drop k) = none := by
  induction l with
  | nil =>
    constructor
    · intro h
      exact ⟨0, Nat.le_refl 0, h, fun k hk => absurd hk (Nat.not_lt_zero k)⟩
    · rintro ⟨i, hi, hfi, _⟩
      cases i with
      | zero => exact hfi
      | succ j => exact absurd hi (Nat.not_succ_le_zero j)
  | cons c cs ih =>
    simp only [scanFirst]
    cases hf : f (c :: cs) with
    | some b =>
      constructor
      · intro h
        exact ⟨0, Nat.zero_le _, hf.trans h, fun k hk => absurd hk (Nat.not_lt_zero k)⟩
      · rintro ⟨i, hi, hfi, hmin⟩
        cases i with
        | zero => exact hf.symm.trans hfi
        | succ j =>
          have h0 : f (c :: cs) = none := hmin 0 (Nat.succ_pos j)
          rw [hf] at h0
          exact Option.noConfusion h0
    | none =>
      rw [ih]
      constructor
      · rintro ⟨i, hi, hfi, hmin⟩
        refine ⟨i + 1, Nat.succ_le_succ hi, hfi, ?_⟩
        intro k hk
        cases k with
        | zero => exact hf
        | succ m => exact hmin m (Nat.lt_of_succ_lt_succ hk)
      · rintro ⟨i, hi, hfi, hmin⟩
        cases i with
        | zero =>
          have h0 : f (c :: cs) = some a := hfi
          rw [hf] at h0
          exact Option.noConfusion h0
        | succ j =>
          exact ⟨j, Nat.le_of_succ_le_succ hi, hfi,
            fun k hk => hmin (k + 1) (Nat.succ_lt_succ hk)⟩

/-- Shift of the previous-character accessor across a cons. -/
theorem prevAt_cons (p0 : Option Char) (c : Char) (cs : List Char) (j : Nat) :
    prevAt p0 (c :: cs) (j + 1) = prevAt (some c) cs j := by
  cases j with
  | zero => rfl
  | succ m => rfl

/-- The boundary-aware scan fails exactly when the matcher fails at every
position, given the correct preceding character at each. -/
theorem scanFirstP_eq_none_iff {α : Type}
    (f : Option Char → List Char → Option α) (l : List Char) :
    ∀ p0, scanFirstP f p0 l = none ↔
      ∀ i, i ≤ l.length → f (prevAt p0 l i) (l.drop i) = none := by
  induction l with
  | nil =>
    intro p0
    constructor
    · intro h i hi
      cases i with
      | zero => simpa [prevAt] using h
      | succ j => simp at hi
    · intro h
      simpa [prevAt] using h 0 (Nat.le_refl 0)
  | cons c cs ih =>
    intro p0
    simp only [scanFirstP]
    cases hf : f p0 (c :: cs) with
    | some a =>
      simp only [reduceCtorEq, false_iff]
      intro h
      have := h 0 (Nat.zero_le _)
      simp only [prevAt, List.drop_zero] at this
      rw [this] at hf
      exact Option.noConfusion hf
    | none =>
      rw [ih (some c)]
      constructor
      · intro h i hi
        cases i with
        | zero => simpa [prevAt] using hf
        | succ j =>
          rw [prevAt_cons]
          exact h j (Nat.le_of_succ_le_succ hi)
      · intro h i hi
        rw [← prevAt_cons p0 c cs i]
        exact h (i + 1) (Nat.succ_le_succ hi)

/-- The boundary-aware scan succeeds exactly at the first position where the
matcher succeeds. -/
theorem scanFirstP_eq_some_iff {α : Type}
    (f : Option Char → List Char → Option α) (l : List Char) (a : α) :
    ∀ p0, scanFirstP f p0 l = some a ↔
      ∃ i, i ≤ l.length ∧ f (prevAt p0 l i) (l.drop i) = some a ∧
        ∀ k, k < i → f (prevAt p0 l k) (l.drop k) = none := by
  induction l with
  | nil =>
    intro p0
    constructor
    · intro h
      exact ⟨0, Nat.le_refl 0, h, fun k hk => absurd hk (Nat.not_lt_zero k)⟩
    · rintro ⟨i, hi, hfi, _⟩
      cases i with
      | zero => exact hfi
      | succ j => exact absurd hi (Nat.not_succ_le_zero j)
  | cons c cs ih =>
    intro p0
    simp only [scanFirstP]
    cases hf : f p0 (c :: cs) with
    | some b =>
      constructor
      · intro h
        exact ⟨0, Nat.zero_le _, hf.trans h, fun k hk => absurd hk (Nat.not_lt_zero k)⟩
      · rintro ⟨i, hi, hfi, hmin⟩
        cases i with
        | zero => exact hf.symm.trans hfi
        | succ j =>
          have h0 : f p0 (c :: cs) = none := hmin 0 (Nat.succ_pos j)
          rw [hf] at h0
          exact Option.noConfusion h0
    | none =>
      rw [ih (some c)]
      constructor
      · rintro ⟨i, hi, hfi, hmin⟩
        refine ⟨i + 1, Nat.succ_le_succ hi, ?_, ?_⟩
        · rw [prevAt_cons]
          exact hfi
        · intro k hk
          cases k with
          | zero => exact hf
          | succ m =>
            rw [prevAt_cons]
            exact hmin m (Nat.lt_of_succ_lt_succ hk)
      · rintro ⟨i, hi, hfi, hmin⟩
        cases i with
        | zero =>
          have h0 : f p0 (c :: cs) = some a := hfi
          rw [hf] at h0
          exact Option.noConfusion h0
        | succ j =>
          refine ⟨j, Nat.le_of_succ_le_succ hi, ?_, ?_⟩
          · rw [← prevAt_cons p0]
            exact hfi
          · intro k hk
            rw [← prevAt_cons p0]
            exact hmin (k + 1) (Nat.succ_lt_succ hk)

/-- Claim C6: when the constant block (resp. the section header) occurs
nowhere in the text, the extractor returns the empty mapping - and raises
nothing, being a total function; and an empty extraction result surfaces
only through the Missing branch of the comparator, which has no separate
not-found error path. -/
theorem claim_C6 :
    (∀ rs net, (∀ i, i ≤ rs.length → matchBlockAt (pyUpper net) (rs.drop i) = none) →
      extract_rs_addresses rs net = []) ∧
    (∀ docs hdr, (∀ i, i ≤ docs.length → litCI hdr (docs.drop i) = none) →
      extract_docs_addresses docs hdr = []) ∧
    (∀ net tomlField addrField header rsFile tomlNet docsAddrs,
      Issue.missingRs net addrField rsFile ∈
        compareField3 net tomlField addrField header rsFile tomlNet [] docsAddrs) ∧
    (∀ net tomlField addrField rsFile tomlNet,
      Issue.missingRs net addrField rsFile ∈
        compareField2 net tomlField addrField rsFile tomlNet []) := by
  refine ⟨?_, ?_, ?_, ?_⟩
  · intro rs net h
    unfold extract_rs_addresses
    rw [(scanFirst_eq_none_iff (matchBlockAt (pyUpper net)) rs).mpr h]
  · intro docs hdr h
    unfold extract_docs_addresses
    rw [(scanFirst_eq_none_iff (litCI hdr) docs).mpr h]
  · intro net tomlField addrField header rsFile tomlNet docsAddrs
    simp only [compareField3, dget, Option.getD_none, pyLower, List.map_nil,
      List.mem_append]
    split_ifs <;> simp_all
  · intro net tomlField addrField rsFile tomlNet
    simp only [compareField2, dget, Option.getD_none, pyLower, List.map_nil,
      List.mem_append]
    split_ifs <;> simp_all

/-- Witness of claim C6: texts without the block or header extract to the
empty mapping, and an empty source mapping yields a Missing issue. -/
theorem claim_C6_witness :
    extract_rs_addresses (chars "nothing here") (chars "base") = [] ∧
    extract_docs_addresses (chars "no headers at all") (chars "### Base") = [] ∧
    Issue.missingRs (chars "n") (chars "a") (chars "r") ∈
      compareField3 (chars "n") (chars "f") (chars "a") (chars "h") (chars "r")
        [] [] [] := by
  refine ⟨claim_C6.1 (chars "nothing here") (chars "base") (by decide),
    claim_C6.2.1 (chars "no headers at all") (chars "### Base") (by decide),
    claim_C6.2.2.1 (chars "n") (chars "f") (chars "a") (chars "h") (chars "r")
      [] []⟩

/-! ### Lemmas about the address-literal matcher, and claim C4 -/

/-- A predicate false on every element leaves dropWhile inert. -/
theorem dropWhile_eq_self_of_all_false (p : Char → Bool) (l : List Char)
    (h : ∀ c ∈ l, p c = false) : l.dropWhile p = l := by
  induction l with
  | nil => rfl
  | cons c cs ih =>
    rw [List.dropWhile_cons, h c (List.mem_cons_self c cs)]
    simp only [Bool.false_eq_true, if_false]

/-- Stripping a text without whitespace characters is the identity. -/
theorem pyStrip_of_no_space (l : List Char)
    (h : ∀ c ∈ l, isSpaceCh c = false) : pyStrip l = l := by
  unfold pyStrip
  rw [dropWhile_eq_self_of_all_false _ _ h,
    dropWhile_eq_self_of_all_false _ _ (fun c hc => h c (List.mem_reverse.mp hc)),
    List.reverse_reverse]

/-- Hex digits are not whitespace. -/
theorem hex_not_space (c : Char) (h : isHexCh c = true) : isSpaceCh c = false := by
  by_contra hs
  simp only [Bool.not_eq_false] at hs
  simp only [isSpaceCh, Bool.or_eq_true, decide_eq_true_eq] at hs
  rcases hs with ((((rfl | rfl) | rfl) | rfl) | rfl) | rfl <;>
    exact absurd h (by decide)

/-- Taking exactly the length of an all-hex block succeeds and splits it off. -/
theorem hexTake_exact (h r : List Char) :
    ∀ n, h.length = n → (∀ c ∈ h, isHexCh c = true) →
      hexTake n (h ++ r) = some (h, r) := by
  induction h with
  | nil =>
    intro n hn _
    subst hn
    rfl
  | cons c t ih =>
    intro n hn hhex
    subst hn
    simp only [List.length_cons, List.cons_append, hexTake,
      hhex c (List.mem_cons_self c t), if_true]
    rw [show (t.append r) = t ++ r from rfl,
      ih t.length rfl (fun x hx => hhex x (List.mem_cons_of_mem c hx))]
    rfl

/-- A matcher succeeding at the very first position makes the scan succeed. -/
theorem scanFirst_of_self {α : Type} (f : List Char → Option α) (l : List Char)
    (a : α) (h : f l = some a) : scanFirst f l = some a := by
  cases l with
  | nil => exact h
  | cons c cs => simp [scanFirst, h]

/-- The address-literal matcher fails where the text does not start with a. -/
theorem matchAddrLitAt_head_ne (c : Char) (cs : List Char) (h : c ≠ 'a') :
    matchAddrLitAt (c :: cs) = none := by
  unfold matchAddrLitAt
  rw [show chars "address!(" = 'a' :: chars "ddress!(" from rfl]
  rw [lit_cons_ne c 'a' _ _ h]

/-- The address-literal matcher on the exact literal shape of the claim,
address!("0x...40 hex...")  followed by anything, returns the address. -/
theorem matchAddrLitAt_literal (a rest2 : List Char) (ha : IsAddr a) :
    matchAddrLitAt (chars "address!(" ++ ('\x22' :: (a ++ ('\x22' :: ')' :: rest2)))) =
      some a := by
  obtain ⟨h, rfl, hlen, hhex⟩ := ha
  have hht := hexTake_exact h ('\x22' :: ')' :: rest2) 40 hlen hhex
  rw [show ('0' :: 'x' :: h) ++ ('\x22' :: ')' :: rest2) =
    chars "0x" ++ (h ++ ('\x22' :: ')' :: rest2)) from rfl]
  simp [matchAddrLitAt, matchAddrAt, lit_self_append, skipWs, lit, isSpaceCh, hht]

/-- Claim C4: inside a located block, a field value equal to the literal None
maps to the empty string; a value of the address-literal shape, plain or
wrapped in Some(...), maps to the lowercased address; and any value in which
no address literal occurs anywhere maps to the empty string. -/
theorem claim_C4 :
    (∀ raw, pyStrip raw = chars "None" → rsFieldValue raw = []) ∧
    (∀ a, IsAddr a →
      rsFieldValue (chars "address!(" ++ ('\x22' :: (a ++ ['\x22', ')']))) =
        pyLower a ∧
      rsFieldValue (chars "Some(address!(" ++ ('\x22' :: (a ++ ['\x22', ')', ')']))) =
        pyLower a) ∧
    (∀ raw, pyStrip raw ≠ chars "None" →
      (∀ i, i ≤ (pyStrip raw).length → matchAddrLitAt ((pyStrip raw).drop i) = none) →
      rsFieldValue raw = []) := by
  have hval : ∀ raw, rsFieldValue raw =
      if pyStrip raw = chars "None" then []
      else
        match scanFirst matchAddrLitAt (pyStrip raw) with
        | some a => pyLower a
        | none => [] := fun raw => rfl
  have hlitA : ∀ c ∈ chars "address!(", isSpaceCh c = false := by decide
  have hlitS : ∀ c ∈ chars "Some(address!(", isSpaceCh c = false := by decide
  have htail2 : ∀ c ∈ ['\x22', ')'], isSpaceCh c = false := by decide
  have htail3 : ∀ c ∈ ['\x22', ')', ')'], isSpaceCh c = false := by decide
  refine ⟨?_, ?_, ?_⟩
  · intro raw h
    rw [hval, if_pos h]
  · intro a ha
    obtain ⟨h, rfl, hlen, hhex⟩ := ha
    have hmem : ∀ c ∈ ('0' :: 'x' :: h), isSpaceCh c = false := by
      intro c hc
      rcases List.mem_cons.mp hc with rfl | hc
      · decide
      rcases List.mem_cons.mp hc with rfl | hc
      · decide
      exact hex_not_space c (hhex c hc)
    constructor
    · have hns : ∀ c ∈ chars "address!(" ++
          ('\x22' :: (('0' :: 'x' :: h) ++ ['\x22', ')'])),
          isSpaceCh c = false := by
        intro c hc
        rcases List.mem_append.mp hc with hc | hc
        · exact hlitA c hc
        · rcases List.mem_cons.mp hc with rfl | hc
          · decide
          rcases List.mem_append.mp hc with hc | hc
          · exact hmem c hc
          · exact htail2 c hc
      have hstrip := pyStrip_of_no_space _ hns
      have hne : chars "address!(" ++ ('\x22' :: (('0' :: 'x' :: h) ++
          ['\x22', ')'])) ≠ chars "None" := by
        intro he
        have h0 : (chars "address!(" ++ ('\x22' :: (('0' :: 'x' :: h) ++
            ['\x22', ')']))).head? = some 'a' := rfl
        rw [he] at h0
        exact absurd h0 (by decide)
      have hscan := scanFirst_of_self matchAddrLitAt _ _
        (matchAddrLitAt_literal ('0' :: 'x' :: h) [] ⟨h, rfl, hlen, hhex⟩)
      rw [hval, hstrip, if_neg hne, hscan]
    · have hns : ∀ c ∈ chars "Some(address!(" ++
          ('\x22' :: (('0' :: 'x' :: h) ++ ['\x22', ')', ')'])),
          isSpaceCh c = false := by
        intro c hc
        rcases List.mem_append.mp hc with hc | hc
        · exact hlitS c hc
        · rcases List.mem_cons.mp hc with rfl | hc
          · decide
          rcases List.mem_append.mp hc with hc | hc
          · exact hmem c hc
          · exact htail3 c hc
      have hstrip := pyStrip_of_no_space _ hns
      have hne : chars "Some(address!(" ++ ('\x22' :: (('0' :: 'x' :: h) ++
          ['\x22', ')', ')'])) ≠ chars "None" := by
        intro he
        have h0 : (chars "Some(address!(" ++ ('\x22' :: (('0' :: 'x' :: h) ++
            ['\x22', ')', ')']))).head? = some 'S' := rfl
        rw [he] at h0
        exact absurd h0 (by decide)
      have hsome : matchAddrLitAt ((chars "Some(address!(" ++
          ('\x22' :: (('0' :: 'x' :: h) ++ ['\x22', ')', ')']))).drop 5) =
          some ('0' :: 'x' :: h) :=
        matchAddrLitAt_literal ('0' :: 'x' :: h) [')'] ⟨h, rfl, hlen, hhex⟩
      have hlen5 : 5 ≤ (chars "Some(address!(" ++
          ('\x22' :: (('0' :: 'x' :: h) ++ ['\x22', ')', ')']))).length := by
        rw [List.length_append]
        have h14 : (chars "Some(address!(").length = 14 := rfl
        omega
      have hscan : scanFirst matchAddrLitAt (chars "Some(address!(" ++
          ('\x22' :: (('0' :: 'x' :: h) ++ ['\x22', ')', ')']))) =
          some ('0' :: 'x' :: h) := by
        rw [scanFirst_eq_some_iff]
        refine ⟨5, hlen5, hsome, ?_⟩
        intro k hk
        interval_cases k
        · exact matchAddrLitAt_head_ne 'S' _ (by decide)
        · exact matchAddrLitAt_head_ne 'o' _ (by decide)
        · exact matchAddrLitAt_head_ne 'm' _ (by decide)
        · exact matchAddrLitAt_head_ne 'e' _ (by decide)
        · exact matchAddrLitAt_head_ne '(' _ (by decide)
      rw [hval, hstrip, if_neg hne, hscan]
  · intro raw hne h
    rw [hval, if_neg hne, (scanFirst_eq_none_iff matchAddrLitAt _).mpr h]


/-- Witness of claim C4: a concrete mixed-case address in plain and wrapped
form maps to its lowercase form, and a stripped None maps to empty. -/
theorem claim_C4_witness :
    rsFieldValue (chars "address!(" ++ ('\x22' ::
        (chars "0xAbCdEf0000000000000000000000000000000001" ++ ['\x22', ')']))) =
      pyLower (chars "0xAbCdEf0000000000000000000000000000000001") ∧
    rsFieldValue (chars "Some(address!(" ++ ('\x22' ::
        (chars "0xAbCdEf0000000000000000000000000000000001" ++
          ['\x22', ')', ')']))) =
      pyLower (chars "0xAbCdEf0000000000000000000000000000000001") ∧
    rsFieldValue (chars " None ") = [] := by
  have hiA : IsAddr (chars "0xAbCdEf0000000000000000000000000000000001") :=
    ⟨chars "AbCdEf0000000000000000000000000000000001", rfl, by decide, by decide⟩
  have h2 := claim_C4.2.1 _ hiA
  exact ⟨h2.1, h2.2, claim_C4.1 (chars " None ") (by decide)⟩

/-! ### Shape invariants of the extractors, claim C10 -/

/-- Lowercasing a hex digit yields a lowercase hex digit. -/
theorem lowerHex_of_hex (c : Char) (h : isHexCh c = true) :
    isLowerHexCh (lowerCh c) = true := by
  simp only [isHexCh, Bool.or_eq_true, Bool.and_eq_true, decide_eq_true_eq] at h
  have hofn : Char.ofNat c.toNat = c := Char.ofNat_toNat c
  rcases h with (⟨h1, h2⟩ | ⟨h1, h2⟩) | ⟨h1, h2⟩
  · have hn1 : 48 ≤ c.toNat := h1
    have hn2 : c.toNat ≤ 57 := h2
    rw [← hofn]
    interval_cases c.toNat <;> decide
  · have hn1 : 97 ≤ c.toNat := h1
    have hn2 : c.toNat ≤ 102 := h2
    rw [← hofn]
    interval_cases c.toNat <;> decide
  · have hn1 : 65 ≤ c.toNat := h1
    have hn2 : c.toNat ≤ 70 := h2
    rw [← hofn]
    interval_cases c.toNat <;> decide

/-- What hexTake returns really is n hex digits. -/
theorem hexTake_shape :
    ∀ (n : Nat) (l h r : List Char), hexTake n l = some (h, r) →
      h.length = n ∧ ∀ c ∈ h, isHexCh c = true := by
  intro n
  induction n with
  | zero =>
    intro l h r hh
    simp only [hexTake, Option.some.injEq, Prod.mk.injEq] at hh
    obtain ⟨h1, h2⟩ := hh
    subst h1
    simp
  | succ m ih =>
    intro l h r hh
    cases l with
    | nil => exact absurd hh (by simp [hexTake])
    | cons c cs =>
      simp only [hexTake] at hh
      by_cases hc : isHexCh c = true
      · rw [if_pos hc] at hh
        cases hm : hexTake m cs with
        | none => rw [hm] at hh; exact absurd hh (by simp)
        | some pr =>
          rw [hm] at hh
          simp only [Option.map_some', Option.some.injEq, Prod.mk.injEq] at hh
          obtain ⟨⟨h1, h2⟩, _⟩ := And.intro hh trivial
          have := ih cs pr.1 pr.2 (by rw [hm])
          constructor
          · rw [← h1]
            simp [this.1]
          · intro x hx
            rw [← h1] at hx
            rcases List.mem_cons.mp hx with rfl | hx
            · exact hc
            · exact this.2 x hx
      · rw [if_neg hc] at hh
        exact absurd hh (by simp)

/-- What matchAddrAt returns is 0x followed by 40 hex digits. -/
theorem matchAddrAt_shape (l a r : List Char) (h : matchAddrAt l = some (a, r)) :
    ∃ hx, a = '0' :: 'x' :: hx ∧ hx.length = 40 ∧ ∀ c ∈ hx, isHexCh c = true := by
  unfold matchAddrAt at h
  cases hl : lit (chars "0x") l with
  | none => simp only [hl] at h; exact Option.noConfusion h
  | some r1 =>
    simp only [hl] at h
    cases hht : hexTake 40 r1 with
    | none => simp only [hht, Option.map_none'] at h; exact Option.noConfusion h
    | some pr =>
      simp only [hht, Option.map_some', Option.some.injEq, Prod.mk.injEq] at h
      obtain ⟨hsh1, hsh2⟩ := hexTake_shape 40 r1 pr.1 pr.2 (by rw [hht])
      exact ⟨pr.1, h.1.symm, hsh1, hsh2⟩

/-- What the address-literal matcher returns is 0x followed by 40 hex digits. -/
theorem matchAddrLitAt_shape (l a : List Char) (h : matchAddrLitAt l = some a) :
    ∃ hx, a = '0' :: 'x' :: hx ∧ hx.length = 40 ∧ ∀ c ∈ hx, isHexCh c = true := by
  unfold matchAddrLitAt at h
  cases h1 : lit (chars "address!(") l with
  | none => simp only [h1] at h; exact Option.noConfusion h
  | some r1 =>
    simp only [h1] at h
    cases h2 : lit ['\x22'] (skipWs r1) with
    | none => simp only [h2] at h; exact Option.noConfusion h
    | some r2 =>
      simp only [h2] at h
      cases h3 : matchAddrAt r2 with
      | none => simp only [h3] at h; exact Option.noConfusion h
      | some ar =>
        simp only [h3] at h
        cases h4 : lit ['\x22'] ar.2 with
        | none => simp only [h4] at h; exact Option.noConfusion h
        | some r3 =>
          simp only [h4] at h
          cases h5 : lit [')'] (skipWs r3) with
          | none => simp only [h5] at h; exact Option.noConfusion h
          | some r4 =>
            simp only [h5, Option.some.injEq] at h
            subst h
            exact matchAddrAt_shape r2 ar.1 ar.2 (by rw [h3])

/-- Lowercasing an address yields a lowercase address. -/
theorem pyLower_addr (a : List Char)
    (ha : ∃ hx, a = '0' :: 'x' :: hx ∧ hx.length = 40 ∧ ∀ c ∈ hx, isHexCh c = true) :
    IsLowerAddr (pyLower a) := by
  obtain ⟨hx, rfl, hlen, hhex⟩ := ha
  refine ⟨hx.map lowerCh, ?_, ?_, ?_⟩
  · simp [pyLower]
    constructor <;> decide
  · simp [hlen]
  · intro c hc
    rcases List.mem_map.mp hc with ⟨d, hd, rfl⟩
    exact lowerHex_of_hex d (hhex d hd)

/-- The interpreted value of a field entry is empty or a lowercase address. -/
theorem rsFieldValue_shape (raw : List Char) :
    rsFieldValue raw = [] ∨ IsLowerAddr (rsFieldValue raw) := by
  have hval : rsFieldValue raw =
      if pyStrip raw = chars "None" then []
      else
        match scanFirst matchAddrLitAt (pyStrip raw) with
        | some a => pyLower a
        | none => [] := rfl
  rw [hval]
  split_ifs with h
  · exact Or.inl rfl
  cases hs : scanFirst matchAddrLitAt (pyStrip raw) with
  | none => exact Or.inl rfl
  | some a =>
    right
    obtain ⟨i, _, hfi, _⟩ := (scanFirst_eq_some_iff matchAddrLitAt _ a).mp hs
    exact pyLower_addr a (matchAddrLitAt_shape _ a hfi)

/-- The field name of a successful field-entry match ends in _address. -/
theorem matchFieldAt_suffix (l f v r : List Char)
    (h : matchFieldAt l = some (f, v, r)) :
    ∃ pre, f = pre ++ chars "_address" := by
  simp only [matchFieldAt] at h
  by_cases hcond : 9 ≤ (l.takeWhile isWordCh).length ∧
      (l.takeWhile isWordCh).drop ((l.takeWhile isWordCh).length - 8) =
        chars "_address"
  · rw [if_pos hcond] at h
    cases hl : lit [':'] (skipWs (l.drop (l.takeWhile isWordCh).length)) with
    | none => simp only [hl] at h; exact Option.noConfusion h
    | some r2 =>
      simp only [hl] at h
      cases hj : r2.findIdx? (fun c => c = ',') with
      | none => simp only [hj] at h; exact Option.noConfusion h
      | some j =>
        simp only [hj] at h
        by_cases hj0 : j = 0
        · rw [if_pos hj0] at h
          exact absurd h (by simp)
        · rw [if_neg hj0] at h
          simp only [Option.some.injEq, Prod.mk.injEq] at h
          refine ⟨(l.takeWhile isWordCh).take ((l.takeWhile isWordCh).length - 8), ?_⟩
          rw [← h.1]
          conv_lhs => rw [← List.take_append_drop ((l.takeWhile isWordCh).length - 8)
            (l.takeWhile isWordCh)]
          rw [hcond.2]
  · rw [if_neg hcond] at h
    exact absurd h (by simp)

/-- Every entry produced by the field scan comes from a successful match. -/
theorem findFields_mem :
    ∀ (fuel : Nat) (l : List Char) (p : List Char × List Char),
      p ∈ findFields fuel l →
      ∃ s r, matchFieldAt s = some (p.1, p.2, r) := by
  intro fuel
  induction fuel with
  | zero => intro l p hp; exact absurd hp (by simp [findFields])
  | succ m ih =>
    intro l p hp
    cases l with
    | nil => exact absurd hp (by simp [findFields])
    | cons c cs =>
      simp only [findFields] at hp
      cases hm : matchFieldAt (c :: cs) with
      | none =>
        simp only [hm] at hp
        exact ih cs p hp
      | some fvr =>
        simp only [hm] at hp
        rcases List.mem_cons.mp hp with rfl | hp
        · exact ⟨c :: cs, fvr.2.2, by rw [hm]⟩
        · exact ih fvr.2.2 p hp

/-- Membership after a dict assignment. -/
theorem mem_dinsert {α : Type} (k : List Char) (v : α)
    (m : List (List Char × α)) (x : List Char × α) (h : x ∈ dinsert k v m) :
    x = (k, v) ∨ x ∈ m := by
  induction m with
  | nil => simpa [dinsert] using h
  | cons kv rest ih =>
    by_cases hk : kv.1 = k
    · rw [dinsert, if_pos hk] at h
      rcases List.mem_cons.mp h with rfl | h
      · exact Or.inl rfl
      · exact Or.inr (List.mem_cons_of_mem kv h)
    · rw [dinsert, if_neg hk] at h
      rcases List.mem_cons.mp h with rfl | h
      · exact Or.inr (List.mem_cons_self x rest)
      · rcases ih h with h | h
        · exact Or.inl h
        · exact Or.inr (List.mem_cons_of_mem kv h)

/-- Membership in the dict built by folding assignments over entries. -/
theorem mem_foldl_dinsert (ps : List (List Char × List Char)) :
    ∀ (m0 : List (List Char × List Char)) (x : List Char × List Char),
      x ∈ ps.foldl (fun m fv => dinsert fv.1 (rsFieldValue fv.2) m) m0 →
      x ∈ m0 ∨ ∃ fv ∈ ps, x = (fv.1, rsFieldValue fv.2) := by
  induction ps with
  | nil => intro m0 x h; exact Or.inl h
  | cons q rest ih =>
    intro m0 x h
    rw [List.foldl_cons] at h
    rcases ih (dinsert q.1 (rsFieldValue q.2) m0) x h with h | ⟨fv, hfv, rfl⟩
    · rcases mem_dinsert q.1 (rsFieldValue q.2) m0 x h with rfl | h
      · exact Or.inr ⟨q, List.mem_cons_self q rest, rfl⟩
      · exact Or.inl h
    · exact Or.inr ⟨fv, List.mem_cons_of_mem q hfv, rfl⟩

/-- What the label grab of the documentation extractor returns is empty or a
lowercase address. -/
theorem grab_shape (pat : LabelPat) (sec : List Char) :
    grab pat sec = [] ∨ IsLowerAddr (grab pat sec) := by
  unfold grab
  cases hs : scanFirstP (labelThenAddrAt pat) none sec with
  | none => exact Or.inl rfl
  | some a =>
    right
    obtain ⟨i, _, hfi, _⟩ := (scanFirstP_eq_some_iff (labelThenAddrAt pat) sec a none).mp hs
    unfold labelThenAddrAt at hfi
    cases hml : matchLabelAt pat (prevAt none sec i) (sec.drop i) with
    | none => simp only [hml] at hfi; exact Option.noConfusion hfi
    | some rest =>
      simp only [hml] at hfi
      have hshape : ∃ hx, a = '0' :: 'x' :: hx ∧ hx.length = 40 ∧
          ∀ c ∈ hx, isHexCh c = true := by
        clear hml hs
        induction rest with
        | nil => exact absurd hfi (by simp [lazyAddr])
        | cons c cs ihr =>
          simp only [lazyAddr] at hfi
          cases hma : matchAddrAt (c :: cs) with
          | some ar =>
            simp only [hma, Option.some.injEq] at hfi
            subst hfi
            exact matchAddrAt_shape _ _ _ (by rw [hma])
          | none =>
            simp only [hma] at hfi
            by_cases hc : c = '\n'
            · rw [if_pos hc] at hfi
              exact absurd hfi (by simp)
            · rw [if_neg hc] at hfi
              exact ihr hfi
      simp only [Option.getD_some]
      exact pyLower_addr a hshape

/-- Claim C10: every entry of the source-code extraction has a key ending in
_address and a value that is empty or a lowercase 0x 40-hex-digit address;
and when the documentation header is found, the documentation extractor
returns exactly the fixed nine keys, each with an empty-or-lowercase-address
value. -/
theorem claim_C10 :
    (∀ rs net, ∀ kv ∈ extract_rs_addresses rs net,
      (∃ pre, kv.1 = pre ++ chars "_address") ∧
      (kv.2 = [] ∨ IsLowerAddr kv.2)) ∧
    (∀ docs hdr, (∃ i, i ≤ docs.length ∧ (litCI hdr (docs.drop i)).isSome = true) →
      (extract_docs_addresses docs hdr).map Prod.fst =
        [chars "boundless_market_address", chars "set_verifier_address",
         chars "verifier_router_address", chars "collateral_token_address",
         chars "zkc_address", chars "vezkc_address",
         chars "staking_rewards_address", chars "povw_accounting_address",
         chars "povw_mint_address"] ∧
      ∀ kv ∈ extract_docs_addresses docs hdr, kv.2 = [] ∨ IsLowerAddr kv.2) := by
  constructor
  · intro rs net kv hkv
    unfold extract_rs_addresses at hkv
    cases hs : scanFirst (matchBlockAt (pyUpper net)) rs with
    | none => rw [hs] at hkv; exact absurd hkv (by simp)
    | some block =>
      rw [hs] at hkv
      rcases mem_foldl_dinsert _ _ _ hkv with h | ⟨fv, hfv, rfl⟩
      · exact absurd h (by simp)
      · obtain ⟨s, r, hm⟩ := findFields_mem (block.length + 1) block fv hfv
        exact ⟨matchFieldAt_suffix s fv.1 fv.2 r hm, rsFieldValue_shape fv.2⟩
  · intro docs hdr hex
    have hs : scanFirst (litCI hdr) docs ≠ none := by
      intro hnone
      obtain ⟨i, hi, hsome⟩ := hex
      rw [(scanFirst_eq_none_iff (litCI hdr) docs).mp hnone i hi] at hsome
      exact absurd hsome (by simp)
    cases hsc : scanFirst (litCI hdr) docs with
    | none => exact absurd hsc hs
    | some afterHeader =>
      unfold extract_docs_addresses
      rw [hsc]
      constructor
      · rfl
      · intro kv hkv
        simp only [List.mem_cons, List.not_mem_nil, or_false] at hkv
        rcases hkv with rfl | rfl | rfl | rfl | rfl | rfl | rfl | rfl | rfl <;>
          exact grab_shape _ _

set_option maxRecDepth 16000 in
/-- Witness of claim C10: concrete extractions satisfy the invariants. -/
theorem claim_C10_witness :
    ((∃ pre, (chars "boundless_market_address" : List Char) =
        pre ++ chars "_address") ∧
      (pyLower addrA = [] ∨ IsLowerAddr (pyLower addrA))) ∧
    ((extract_docs_addresses docsFix (chars "### Base")).map Prod.fst =
      [chars "boundless_market_address", chars "set_verifier_address",
       chars "verifier_router_address", chars "collateral_token_address",
       chars "zkc_address", chars "vezkc_address",
       chars "staking_rewards_address", chars "povw_accounting_address",
       chars "povw_mint_address"] ∧
     ∀ kv ∈ extract_docs_addresses docsFix (chars "### Base"),
       kv.2 = [] ∨ IsLowerAddr kv.2) :=
  ⟨claim_C10.1 rsFix (chars "BASE")
      (chars "boundless_market_address", pyLower addrA) (by decide),
   claim_C10.2 docsFix (chars "### Base") ⟨0, by decide, by decide⟩⟩

/-! ### Claim C3: the documentation label rule -/

/-- Counterexample to claim C3 as stated: in the section of this document the
label occurs at position 1 and a 0x 40-hex address occurs at position 17,
after the label occurrence (on the next line), yet the extractor maps the
field to the empty string - the lazy gap of the grab regex cannot cross the
newline, while the claim predicts the lowercased address. -/
theorem claim_C3_counterexample :
    dget (chars "boundless_market_address")
        (extract_docs_addresses (chars "### X\nBoundlessMarket\n" ++ addrA)
          (chars "### X")) = some [] ∧
    takeUntilSub (chars "\n###") (chars "\nBoundlessMarket\n" ++ addrA) =
      chars "\nBoundlessMarket\n" ++ addrA ∧
    labelOccursAt (.plain (chars "BoundlessMarket"))
      (chars "\nBoundlessMarket\n" ++ addrA) 1 ∧
    AddrAt (chars "\nBoundlessMarket\n" ++ addrA) 17 ∧
    1 + patLen (.plain (chars "BoundlessMarket")) ≤ 17 := by decide

/-- Full characterization of a successful exact-hex take. -/
theorem hexTake_eq_some_iff :
    ∀ (n : Nat) (l h r : List Char), hexTake n l = some (h, r) ↔
      h = l.take n ∧ r = l.drop n ∧ (l.take n).length = n ∧
      ∀ c ∈ l.take n, isHexCh c = true := by
  intro n
  induction n with
  | zero =>
    intro l h r
    simp only [hexTake, Option.some.injEq, Prod.mk.injEq, List.take_zero,
      List.drop_zero, List.length_nil, List.not_mem_nil, false_implies,
      implies_true, and_true]
    exact ⟨fun hx => ⟨hx.1.symm, hx.2.symm⟩, fun hx => ⟨hx.1.symm, hx.2.symm⟩⟩
  | succ m ih =>
    intro l h r
    cases l with
    | nil =>
      constructor
      · intro hh
        exact absurd hh (by simp [hexTake])
      · rintro ⟨_, _, h3, _⟩
        simp at h3
    | cons c cs =>
      by_cases hc : isHexCh c = true
      · have e : hexTake (m + 1) (c :: cs) =
            (hexTake m cs).map (fun hr => (c :: hr.1, hr.2)) := by
          simp [hexTake, hc]
        rw [e, Option.map_eq_some']
        simp only [List.take_succ_cons, List.drop_succ_cons, List.length_cons,
          List.mem_cons]
        constructor
        · rintro ⟨pr, hm, hpr⟩
          obtain ⟨e1, e2, e3, e4⟩ := (ih cs pr.1 pr.2).mp (by rw [hm])
          rw [Prod.mk.injEq] at hpr
          obtain ⟨hp1, hp2⟩ := hpr
          subst hp1
          subst hp2
          refine ⟨by rw [e1], by rw [e2], by rw [e3], ?_⟩
          rintro x (rfl | hx)
          · exact hc
          · exact e4 x hx
        · rintro ⟨h1, h2, h3, h4⟩
          refine ⟨(cs.take m, cs.drop m), ?_, ?_⟩
          · rw [ih]
            refine ⟨rfl, rfl, by omega, fun x hx => h4 x (Or.inr hx)⟩
          · rw [h1, h2]
      · have e : hexTake (m + 1) (c :: cs) = none := by
          simp [hexTake, hc]
        rw [e]
        simp only [reduceCtorEq, false_iff]
        rintro ⟨_, _, _, h4⟩
        exact hc (h4 c (by simp))

/-- Full characterization of a successful address match. -/
theorem matchAddrAt_eq_some_iff (l a r : List Char) :
    matchAddrAt l = some (a, r) ↔
      l.take 2 = chars "0x" ∧ ((l.drop 2).take 40).length = 40 ∧
      (∀ c ∈ (l.drop 2).take 40, isHexCh c = true) ∧
      a = '0' :: 'x' :: (l.drop 2).take 40 ∧ r = (l.drop 2).drop 40 := by
  have e : matchAddrAt l = (lit (chars "0x") l).bind
      (fun r1 => (hexTake 40 r1).map (fun hr => ('0' :: 'x' :: hr.1, hr.2))) := by
    unfold matchAddrAt
    cases lit (chars "0x") l <;> rfl
  rw [e, Option.bind_eq_some]
  constructor
  · rintro ⟨r1, hl, hm⟩
    rw [Option.map_eq_some'] at hm
    obtain ⟨pr, hht, hpr⟩ := hm
    rw [lit_eq_some_iff] at hl
    obtain ⟨hl1, hl2⟩ := hl
    subst hl2
    obtain ⟨e1, e2, e3, e4⟩ := (hexTake_eq_some_iff 40 _ pr.1 pr.2).mp
      (by rw [hht])
    have hd2 : l.drop (chars "0x").length = l.drop 2 := rfl
    rw [hd2] at e1 e2 e3 e4
    have hl1a : l.take 2 = chars "0x" := hl1
    rw [Prod.mk.injEq] at hpr
    obtain ⟨hp1, hp2⟩ := hpr
    refine ⟨hl1a, e3, e4, ?_, ?_⟩
    · rw [← hp1, e1]
    · rw [← hp2, e2]
  · rintro ⟨h1, h2, h3, h4, h5⟩
    refine ⟨l.drop 2, ?_, ?_⟩
    · rw [lit_eq_some_iff]
      exact ⟨h1, rfl⟩
    · rw [Option.map_eq_some']
      refine ⟨((l.drop 2).take 40, (l.drop 2).drop 40), ?_, ?_⟩
      · rw [hexTake_eq_some_iff]
        exact ⟨rfl, rfl, h2, h3⟩
      · rw [h4, h5]

/-- An address match at a section position succeeds exactly on AddrAt,
and then captures the 42 characters there. -/
theorem matchAddrAt_drop_iff (s : List Char) (j : Nat) :
    matchAddrAt (s.drop j) = some ((s.drop j).take 42, (s.drop j).drop 42) ↔
      AddrAt s j := by
  rw [matchAddrAt_eq_some_iff]
  unfold AddrAt
  have hdd : (s.drop j).drop 2 = s.drop (j + 2) := by
    rw [List.drop_drop, Nat.add_comm]
  constructor
  · rintro ⟨h1, h2, h3, _, _⟩
    rw [hdd] at h2 h3
    exact ⟨h1, h2, h3⟩
  · rintro ⟨h1, h2, h3⟩
    rw [← hdd] at h2 h3
    refine ⟨h1, h2, h3, ?_, ?_⟩
    · rw [show (42 : Nat) = 2 + 40 from rfl, List.take_add, h1]
      rfl
    · rw [show (42 : Nat) = 2 + 40 from rfl, ← List.drop_drop]

/-- The address value captured at a position is determined. -/
theorem matchAddrAt_drop_eq (s : List Char) (j : Nat) (a r : List Char)
    (h : matchAddrAt (s.drop j) = some (a, r)) :
    a = (s.drop j).take 42 ∧ r = (s.drop j).drop 42 ∧ AddrAt s j := by
  obtain ⟨h1, h2, h3, h4, h5⟩ := (matchAddrAt_eq_some_iff _ a r).mp h
  have ha : a = (s.drop j).take 42 := by
    rw [h4, show (42 : Nat) = 2 + 40 from rfl, List.take_add, h1]
    rfl
  have hr : r = (s.drop j).drop 42 := by
    rw [h5, show (42 : Nat) = 2 + 40 from rfl, ← List.drop_drop]
  refine ⟨ha, hr, ?_⟩
  rw [← matchAddrAt_drop_iff, ← ha, ← hr]
  exact h

/-- Failure of the address match at a position is exactly the absence of an
address there. -/
theorem matchAddrAt_drop_none_iff (s : List Char) (j : Nat) :
    matchAddrAt (s.drop j) = none ↔ ¬AddrAt s j := by
  constructor
  · intro hn ha
    rw [← matchAddrAt_drop_iff] at ha
    rw [hn] at ha
    exact Option.noConfusion ha
  · intro hn
    cases hm : matchAddrAt (s.drop j) with
    | none => rfl
    | some ar =>
      exact absurd (matchAddrAt_drop_eq s j ar.1 ar.2 (by rw [hm])).2.2 hn


/-- Full characterization of the lazy same-line address search. -/
theorem lazyAddr_eq_some_iff (l a : List Char) :
    lazyAddr l = some a ↔
      ∃ g r, matchAddrAt (l.drop g) = some (a, r) ∧
        ∀ k, k < g → matchAddrAt (l.drop k) = none ∧ l.get? k ≠ some '\n' := by
  induction l with
  | nil =>
    constructor
    · intro h
      exact absurd h (by simp [lazyAddr])
    · rintro ⟨g, r, hm, _⟩
      rw [List.drop_nil] at hm
      rw [show matchAddrAt ([] : List Char) = none from rfl] at hm
      exact Option.noConfusion hm
  | cons c cs ih =>
    simp only [lazyAddr]
    cases hma : matchAddrAt (c :: cs) with
    | some ar =>
      constructor
      · intro h
        have ha : ar.1 = a := Option.some.inj h
        subst ha
        exact ⟨0, ar.2, hma, fun k hk => absurd hk (Nat.not_lt_zero k)⟩
      · rintro ⟨g, r, hm, hmin⟩
        cases g with
        | zero =>
          have h0 : matchAddrAt (c :: cs) = some (a, r) := hm
          rw [hma] at h0
          have h1 : ar.1 = a := by rw [Option.some.inj h0]
          show some ar.1 = some a
          rw [h1]
        | succ gg =>
          have h0 : matchAddrAt (c :: cs) = none := (hmin 0 (Nat.succ_pos gg)).1
          rw [hma] at h0
          exact Option.noConfusion h0
    | none =>
      by_cases hc : c = '\n'
      · rw [if_pos hc]
        constructor
        · intro h
          exact Option.noConfusion h
        · rintro ⟨g, r, hm, hmin⟩
          cases g with
          | zero =>
            have h0 : matchAddrAt (c :: cs) = some (a, r) := hm
            rw [hma] at h0
            exact Option.noConfusion h0
          | succ gg =>
            have h0 : (c :: cs).get? 0 ≠ some '\n' := (hmin 0 (Nat.succ_pos gg)).2
            exact absurd (show (c :: cs).get? 0 = some '\n' by rw [hc]; exact rfl) h0
      · rw [if_neg hc, ih]
        constructor
        · rintro ⟨g, r, hm, hmin⟩
          refine ⟨g + 1, r, hm, ?_⟩
          intro k hk
          cases k with
          | zero => exact ⟨hma, fun he => hc (Option.some.inj he)⟩
          | succ kk => exact hmin kk (Nat.lt_of_succ_lt_succ hk)
        · rintro ⟨g, r, hm, hmin⟩
          cases g with
          | zero =>
            have h0 : matchAddrAt (c :: cs) = some (a, r) := hm
            rw [hma] at h0
            exact Option.noConfusion h0
          | succ gg =>
            exact ⟨gg, r, hm, fun k hk => hmin (k + 1) (Nat.succ_lt_succ hk)⟩

/-- An address reachable across a newline-free gap makes the lazy search
succeed (with some value). -/
theorem lazyAddr_isSome :
    ∀ (g : Nat) (l b r : List Char), matchAddrAt (l.drop g) = some (b, r) →
      (∀ k, k < g → l.get? k ≠ some '\n') →
      ∃ a, lazyAddr l = some a := by
  intro g
  induction g with
  | zero =>
    intro l b r hm _
    cases l with
    | nil =>
      have hm2 : matchAddrAt ([] : List Char) = some (b, r) := hm
      rw [show matchAddrAt ([] : List Char) = none from rfl] at hm2
      exact Option.noConfusion hm2
    | cons c cs =>
      have hm' : matchAddrAt (c :: cs) = some (b, r) := hm
      exact ⟨b, by simp only [lazyAddr]; rw [hm']⟩
  | succ gg ih =>
    intro l b r hm hnl
    cases l with
    | nil =>
      rw [List.drop_nil] at hm
      rw [show matchAddrAt ([] : List Char) = none from rfl] at hm
      exact Option.noConfusion hm
    | cons c cs =>
      have hc : c ≠ '\n' := by
        intro he
        exact hnl 0 (Nat.succ_pos gg) (show (c :: cs).get? 0 = some '\n' by rw [he]; exact rfl)
      cases hma : matchAddrAt (c :: cs) with
      | some ar => exact ⟨ar.1, by simp only [lazyAddr]; rw [hma]⟩
      | none =>
        have step : lazyAddr (c :: cs) = lazyAddr cs := by
          simp only [lazyAddr]
          rw [hma, if_neg hc]
        obtain ⟨a, ha⟩ := ih cs b r hm (fun k hk => hnl (k + 1) (Nat.succ_lt_succ hk))
        exact ⟨a, by rw [step, ha]⟩

/-- The label matcher at a section position is exactly labelOccursAt, and
then leaves exactly the text after the label. -/
theorem matchLabelAt_eq_some_iff (pat : LabelPat) (s : List Char) (i : Nat)
    (rest : List Char) :
    matchLabelAt pat (prevAt none s i) (s.drop i) = some rest ↔
      labelOccursAt pat s i ∧ rest = s.drop (i + patLen pat) := by
  cases pat with
  | plain p =>
    simp only [matchLabelAt, labelOccursAt, patLen]
    rw [lit_eq_some_iff]
    have hdd : (s.drop i).drop p.length = s.drop (i + p.length) := by
      rw [List.drop_drop, Nat.add_comm]
    rw [hdd]
  | word p =>
    simp only [matchLabelAt, labelOccursAt, patLen]
    have hdd : (s.drop i).drop p.length = s.drop (i + p.length) := by
      rw [List.drop_drop, Nat.add_comm]
    cases hl : lit p (s.drop i) with
    | none =>
      constructor
      · intro h
        exact Option.noConfusion h
      · rintro ⟨⟨h1, _, _⟩, _⟩
        have hsome : lit p (s.drop i) = some ((s.drop i).drop p.length) := by
          rw [lit_eq_some_iff]
          exact ⟨h1, rfl⟩
        rw [hl] at hsome
        exact Option.noConfusion hsome
    | some r0 =>
      have hl2 := hl
      rw [lit_eq_some_iff] at hl2
      obtain ⟨hl1, hl3⟩ := hl2
      subst hl3
      rw [hdd]
      constructor
      · intro h
        have h2 : (if boundaryB (prevAt none s i) &&
            boundaryHead (s.drop (i + p.length)) then
            some (s.drop (i + p.length)) else (none : Option (List Char))) =
            some rest := h
        by_cases hb : (boundaryB (prevAt none s i) &&
            boundaryHead (s.drop (i + p.length))) = true
        · rw [if_pos hb] at h2
          rw [Bool.and_eq_true] at hb
          exact ⟨⟨hl1, hb.1, hb.2⟩, (Option.some.inj h2).symm⟩
        · rw [if_neg hb] at h2
          exact Option.noConfusion h2
      · rintro ⟨⟨_, hb1, hb2⟩, rfl⟩
        have h2 : (if boundaryB (prevAt none s i) &&
            boundaryHead (s.drop (i + p.length)) then
            some (s.drop (i + p.length)) else (none : Option (List Char))) =
            some (s.drop (i + p.length)) := by
          rw [if_pos (by rw [Bool.and_eq_true]; exact ⟨hb1, hb2⟩)]
        exact h2

/-- Bounds carried by a grab pairing. -/
theorem GrabPair_bounds (pat : LabelPat) (s : List Char) (i j : Nat)
    (hp : GrabPair pat s i j) : i + patLen pat ≤ j ∧ j + 42 ≤ s.length := by
  obtain ⟨_, hle, _, haddr⟩ := hp
  refine ⟨hle, ?_⟩
  have h2 := haddr.2.1
  rw [List.length_take, List.length_drop] at h2
  omega

/-- Soundness of one grab attempt: success at position i means a same-line
pairing exists there, and the value is the 42-character slice at the paired
address. -/
theorem labelThenAddrAt_sound (pat : LabelPat) (s : List Char) (i : Nat)
    (a : List Char)
    (h : labelThenAddrAt pat (prevAt none s i) (s.drop i) = some a) :
    ∃ j, GrabPair pat s i j ∧ a = (s.drop j).take 42 := by
  unfold labelThenAddrAt at h
  cases hml : matchLabelAt pat (prevAt none s i) (s.drop i) with
  | none =>
    simp only [hml] at h
    exact Option.noConfusion h
  | some rest =>
    simp only [hml] at h
    obtain ⟨hlo, hrest⟩ := (matchLabelAt_eq_some_iff pat s i rest).mp (by rw [hml])
    subst hrest
    obtain ⟨g, r, hm, hmin⟩ := (lazyAddr_eq_some_iff _ a).mp h
    have hdd : (s.drop (i + patLen pat)).drop g = s.drop (i + patLen pat + g) := by
      rw [List.drop_drop, Nat.add_comm]
    rw [hdd] at hm
    obtain ⟨ha, _, haddr⟩ := matchAddrAt_drop_eq s (i + patLen pat + g) a r hm
    refine ⟨i + patLen pat + g, ⟨hlo, by omega, ?_, haddr⟩, ha⟩
    intro k hk1 hk2
    have hlt : k - (i + patLen pat) < g := by omega
    have hnl := (hmin _ hlt).2
    rw [List.get?_drop] at hnl
    rw [show k = (i + patLen pat) + (k - (i + patLen pat)) from by omega]
    exact hnl

/-- Completeness of one grab attempt: a same-line pairing at position i makes
the attempt succeed. -/
theorem labelThenAddrAt_isSome (pat : LabelPat) (s : List Char) (i j : Nat)
    (hp : GrabPair pat s i j) :
    ∃ a, labelThenAddrAt pat (prevAt none s i) (s.drop i) = some a := by
  obtain ⟨hlo, hle, hsl, haddr⟩ := hp
  have hml : matchLabelAt pat (prevAt none s i) (s.drop i) =
      some (s.drop (i + patLen pat)) :=
    (matchLabelAt_eq_some_iff pat s i _).mpr ⟨hlo, rfl⟩
  have hm : matchAddrAt ((s.drop (i + patLen pat)).drop (j - (i + patLen pat))) =
      some ((s.drop j).take 42, (s.drop j).drop 42) := by
    rw [List.drop_drop,
      show (i + patLen pat) + (j - (i + patLen pat)) = j from by omega]
    exact (matchAddrAt_drop_iff s j).mpr haddr
  have hnl : ∀ k, k < j - (i + patLen pat) →
      (s.drop (i + patLen pat)).get? k ≠ some '\n' := by
    intro k hk
    rw [List.get?_drop]
    exact hsl _ (by omega) (by omega)
  obtain ⟨a, ha⟩ := lazyAddr_isSome (j - (i + patLen pat))
    (s.drop (i + patLen pat)) _ _ hm hnl
  refine ⟨a, ?_⟩
  unfold labelThenAddrAt
  rw [hml]
  exact ha

/-- The exact value of one grab attempt at a position whose pairing is
minimal in the address coordinate. -/
theorem labelThenAddrAt_exact (pat : LabelPat) (s : List Char) (i j : Nat)
    (hp : GrabPair pat s i j)
    (hminj : ∀ j', j' < j → ¬GrabPair pat s i j') :
    labelThenAddrAt pat (prevAt none s i) (s.drop i) =
      some ((s.drop j).take 42) := by
  obtain ⟨hlo, hle, hsl, haddr⟩ := hp
  have hml : matchLabelAt pat (prevAt none s i) (s.drop i) =
      some (s.drop (i + patLen pat)) :=
    (matchLabelAt_eq_some_iff pat s i _).mpr ⟨hlo, rfl⟩
  unfold labelThenAddrAt
  rw [hml, lazyAddr_eq_some_iff]
  refine ⟨j - (i + patLen pat), (s.drop j).drop 42, ?_, ?_⟩
  · rw [List.drop_drop,
      show (i + patLen pat) + (j - (i + patLen pat)) = j from by omega]
    exact (matchAddrAt_drop_iff s j).mpr haddr
  · intro k hk
    constructor
    · have hj' : (i + patLen pat) + k < j := by omega
      have hnp := hminj _ hj'
      have hna : ¬AddrAt s ((i + patLen pat) + k) := by
        intro ha
        exact hnp ⟨hlo, by omega, fun k' hk1 hk2 => hsl k' (by omega) hk2, ha⟩
      rw [List.drop_drop]
      exact (matchAddrAt_drop_none_iff s _).mpr hna
    · rw [List.get?_drop]
      exact hsl _ (by omega) (by omega)


/-- Claim C3 (amended): within a captured section, grab maps the label to the
empty string exactly when no occurrence of the label is followed, with no
newline in between, by a 0x 40-hex-digit address (the lazy gap of the pattern
cannot cross a line break since it is compiled without DOTALL); when such
same-line pairings exist, grab returns the lowercased 42-character address of
the pairing at the leftmost pairable label occurrence, using the nearest
pairable address for that occurrence. -/
theorem claim_C3_amended (pat : LabelPat) (s : List Char) :
    (grab pat s = [] ↔ ¬∃ i j, GrabPair pat s i j) ∧
    ∀ i j, GrabPair pat s i j →
      (∀ i', i' < i → ∀ j', j' ≤ s.length → ¬GrabPair pat s i' j') →
      (∀ j', j' < j → ¬GrabPair pat s i j') →
      grab pat s = pyLower ((s.drop j).take 42) := by
  constructor
  · unfold grab
    cases hscan : scanFirstP (labelThenAddrAt pat) none s with
    | none =>
      have hall := (scanFirstP_eq_none_iff (labelThenAddrAt pat) s none).mp hscan
      simp only [Option.getD_none, pyLower, List.map_nil]
      constructor
      · intro _
        rintro ⟨i, j, hp⟩
        obtain ⟨hle, hjl⟩ := GrabPair_bounds pat s i j hp
        obtain ⟨a, ha⟩ := labelThenAddrAt_isSome pat s i j hp
        have hn := hall i (by omega)
        rw [hn] at ha
        exact Option.noConfusion ha
      · intro _
        trivial
    | some a =>
      have hsome := (scanFirstP_eq_some_iff (labelThenAddrAt pat) s a none).mp hscan
      obtain ⟨i, hi, hfi, hmin⟩ := hsome
      obtain ⟨j, hp, ha⟩ := labelThenAddrAt_sound pat s i a hfi
      obtain ⟨hle, hjl⟩ := GrabPair_bounds pat s i j hp
      simp only [Option.getD_some]
      constructor
      · intro hnil
        exfalso
        have hlen : a.length = 42 := by
          rw [ha, List.length_take, List.length_drop]
          omega
        have hml : (pyLower a).length = 42 := by
          simp only [pyLower, List.length_map]
          exact hlen
        rw [hnil] at hml
        exact absurd hml (by decide)
      · intro hne
        exact absurd ⟨i, j, hp⟩ hne
  · intro i j hp hmini hminj
    have hex : labelThenAddrAt pat (prevAt none s i) (s.drop i) =
        some ((s.drop j).take 42) :=
      labelThenAddrAt_exact pat s i j hp hminj
    obtain ⟨hle, hjl⟩ := GrabPair_bounds pat s i j hp
    have hscan : scanFirstP (labelThenAddrAt pat) none s =
        some ((s.drop j).take 42) := by
      rw [scanFirstP_eq_some_iff]
      refine ⟨i, by omega, hex, ?_⟩
      intro k hk
      cases hfk : labelThenAddrAt pat (prevAt none s k) (s.drop k) with
      | none => rfl
      | some b =>
        exfalso
        obtain ⟨j2, hp2, _⟩ := labelThenAddrAt_sound pat s k b hfk
        obtain ⟨_, hjl2⟩ := GrabPair_bounds pat s k j2 hp2
        exact hmini k hk j2 (by omega) hp2
    unfold grab
    rw [hscan]
    rfl

set_option maxRecDepth 16000 in
theorem claim_C3_amended_witness :
    grab (LabelPat.plain (chars "BoundlessMarket"))
        (chars "x BoundlessMarket: " ++ addrA) =
      pyLower (((chars "x BoundlessMarket: " ++ addrA).drop 19).take 42) :=
  (claim_C3_amended (LabelPat.plain (chars "BoundlessMarket"))
      (chars "x BoundlessMarket: " ++ addrA)).2 2 19
    (by decide) (by decide) (by decide)


end Boundless
